import Mathlib

/-!
Side-channel demonstration targets: modular exponentiation and password check.

A shallow embedding of the four command handlers

* `lecture_1/1_rsa_uint8_fixed.c`    (`rsa_uint8_fixed`)
* `lecture_1/2_rsa_uint8_variable.c` (`rsa_uint8`)
* `lecture_2/1_password_fixed.c`     (`check_password`, early exit)
* `lecture_4/4_password_fixed.c`     (`check_password`, uniform time)

Conventions of the embedding.

* C integers are natural numbers; every store into a `uint8_t` or `uint16_t`
  variable is written as an explicit `% 256` or `% 65536`.  The operands of
  `*`, `%`, `&`, `|`, `^` and `>>` are the stored values themselves: the
  products of two `uint8_t` values are formed exactly before the store into
  the 16-bit `tmp`.
* The command buffer `uint8_t *input` is a list of cells; a load past its end
  is the fault `out_of_bounds`.  Theorems about buffers assume their cells
  hold 8-bit values where that matters.
* `%` with a zero right operand is the fault `div_by_zero`.
* The calls `trigger_high()`, `trigger_low()` and `simpleserial_put(..)` are
  events appended to an explicit trace, oldest first.
* The `while` loop of the exponentiation runs on a budget of iterations
  (`fuel`); when the budget is used up before the loop condition fails the
  outcome is the fault `out_of_fuel`.  The counted `for` loops of the
  comparators recurse on the number of iterations left before
  `i < sizeof(stored_password) - 1` fails.
* Besides the trace, a run records the indices of `input` it loaded (in
  order), the number of loop bodies it entered and the handler's return value.
* `rsa_after` gives the variables at the head of the `while` loop after a
  given number of passes, for statements about every iteration.
* For statements about the order in which things happen, every handler is
  also written statement by statement on one timeline (`Action`): the calls,
  the loads from `input`, the initialisation of the variable that is sent and
  its value at the end of every pass through the loop, each appended where
  the source performs it.  `observe` reads the run off a timeline, and the
  timeline handlers are proved to give the runs of the handlers above.
-/

namespace SecureC

deriving instance DecidableEq for Except

/-- Ways in which a run can fail to produce an outcome. -/
inductive Fault where
  | div_by_zero
  | out_of_bounds
  | out_of_fuel
  deriving DecidableEq

/-- Externally visible calls made by a handler. -/
inductive Event where
  | trigger_high
  | trigger_low
  | simpleserial_put (c : Char) (size : Nat) (output : List Nat)
  deriving DecidableEq

/-- What a completed handler call leaves behind. -/
structure Run where
  /-- Trigger and transport calls, oldest first. -/
  events : List Event
  /-- Indices of `input` that were loaded, oldest first. -/
  loads : List Nat
  /-- Number of loop bodies entered. -/
  iterations : Nat
  /-- Value returned by the handler. -/
  ret : Nat
  deriving DecidableEq

/-- The character codes of a string, one byte per character. -/
def ascii (s : String) : List Nat := s.toList.map Char.toNat

/-- The bytes of a C string literal used as an array initialiser: the character
codes followed by the terminating zero byte. -/
def c_string (s : String) : List Nat := ascii s ++ [0]

/-- The C expression `a % b` on unsigned operands. -/
def rem (a b : Nat) : Except Fault Nat :=
  if b = 0 then .error .div_by_zero else .ok (a % b)

/-- Local variables of the square-and-multiply loop. -/
structure RsaVars where
  /-- Variable `uint8_t message`. -/
  message : Nat
  /-- Variable `uint8_t exponent`. -/
  exponent : Nat
  /-- Variable `uint8_t result`. -/
  result : Nat
  /-- Variable `uint16_t tmp` (not initialised by the source; never read before written). -/
  tmp : Nat
  deriving DecidableEq

/-- The guarded statement
`if (exponent & 1) { tmp = result * message; result = tmp % modulus; }`. -/
def rsa_multiply (modulus : Nat) (v : RsaVars) : Except Fault RsaVars :=
  if v.exponent &&& 1 ≠ 0 then
    let tmp := (v.result * v.message) % 65536
    match rem tmp modulus with
    | .ok r => .ok { v with tmp := tmp, result := r % 256 }
    | .error f => .error f
  else .ok v

/-- The statements `tmp = message * message; message = tmp % modulus; exponent >>= 1;`. -/
def rsa_square (modulus : Nat) (v : RsaVars) : Except Fault RsaVars :=
  let tmp := (v.message * v.message) % 65536
  match rem tmp modulus with
  | .ok m => .ok { v with tmp := tmp, message := m % 256, exponent := (v.exponent >>> 1) % 256 }
  | .error f => .error f

/-- One pass through the body of `while (exponent) { .. }`. -/
def rsa_body (modulus : Nat) (v : RsaVars) : Except Fault RsaVars :=
  match rsa_multiply modulus v with
  | .ok v1 => rsa_square modulus v1
  | .error f => .error f

/-- The loop `while (exponent) { .. }` started with `n` bodies already entered;
returns the final variables and the number of bodies entered. -/
def rsa_while (modulus : Nat) : Nat → RsaVars → Nat → Except Fault (RsaVars × Nat)
  | fuel, v, n =>
    if v.exponent = 0 then .ok (v, n)
    else
      match fuel with
      | 0 => .error .out_of_fuel
      | fuel + 1 =>
        match rsa_body modulus v with
        | .ok v1 => rsa_while modulus fuel v1 (n + 1)
        | .error f => .error f

/-- Everything between the declaration of `tmp` and `return 0`, shared by both
exponentiation handlers: the loop, `trigger_low()`, `simpleserial_put('r', sizeof(uint8_t), &result)`
and the return value.  `events` already holds `trigger_high`. -/
def rsa_finish (fuel modulus message exponent : Nat) (events : List Event) (loads : List Nat) :
    Except Fault Run :=
  match rsa_while modulus fuel { message := message, exponent := exponent, result := 1, tmp := 0 } 0 with
  | .ok (v, n) =>
    .ok { events := events ++ [.trigger_low, .simpleserial_put 'r' 1 [v.result]],
          loads := loads, iterations := n, ret := 0 }
  | .error f => .error f

/-- The variables at the head of `while (exponent) { .. }` after `k` passes
through its body, started from `v`; `none` when the loop is left, or a pass
faults, before that. -/
def rsa_after (modulus : Nat) : Nat → RsaVars → Option RsaVars
  | 0, v => some v
  | k + 1, v =>
    if v.exponent = 0 then none
    else
      match rsa_body modulus v with
      | .ok v1 => rsa_after modulus k v1
      | .error _ => none

/-- Everything a handler does, in the order in which it does it: the calls of the
trace, the loads from `input`, and the life of the variable that is sent at the end
(`result`, `password_correct` or `password_wrong`). -/
inductive Action where
  /-- A call of `trigger_high`, `trigger_low` or `simpleserial_put`. -/
  | call (e : Event)
  /-- A load of `input[i]`. -/
  | load (i : Nat)
  /-- The declaration of the sent variable with its initial value. -/
  | init (value : Nat)
  /-- The end of one pass through the loop body (at its last statement or at `break`),
  with the value the sent variable holds then. -/
  | pass (value : Nat)
  deriving DecidableEq

/-- The calls of a timeline, oldest first. -/
def calls (t : List Action) : List Event :=
  t.filterMap (fun a => match a with
    | .call e => some e
    | _ => none)

/-- The indices loaded along a timeline, oldest first. -/
def loads_of (t : List Action) : List Nat :=
  t.filterMap (fun a => match a with
    | .load i => some i
    | _ => none)

/-- The number of passes through a loop body along a timeline. -/
def passes (t : List Action) : Nat :=
  t.countP (fun a => match a with
    | .pass _ => true
    | _ => false)

/-- What a timeline and a return value leave behind as a `Run`. -/
def observe (p : List Action × Nat) : Run :=
  { events := calls p.1, loads := loads_of p.1, iterations := passes p.1, ret := p.2 }

/-- The loop `while (exponent) { .. }` writing its timeline: entered with the timeline
`t` so far, every pass through the body appends one `pass` carrying `result`. -/
def rsa_while_timeline (modulus : Nat) :
    Nat → RsaVars → List Action → Except Fault (RsaVars × List Action)
  | fuel, v, t =>
    if v.exponent = 0 then .ok (v, t)
    else
      match fuel with
      | 0 => .error .out_of_fuel
      | fuel + 1 =>
        match rsa_body modulus v with
        | .ok v1 => rsa_while_timeline modulus fuel v1 (t ++ [.pass v1.result])
        | .error f => .error f

/-- Everything between the declaration of `tmp` and `return 0` in both exponentiation
handlers, statement by statement on the timeline `t` so far: `uint8_t result = 1;`, the
loop, `trigger_low();`, `simpleserial_put('r', sizeof(uint8_t), &result);`, `return 0;`. -/
def rsa_finish_timeline (fuel modulus message exponent : Nat) (t : List Action) :
    Except Fault (List Action × Nat) :=
  let t1 := t ++ [.init 1]
  match rsa_while_timeline modulus fuel
      { message := message, exponent := exponent, result := 1, tmp := 0 } t1 with
  | .ok (v, t2) =>
    let t3 := t2 ++ [.call .trigger_low]
    let t4 := t3 ++ [.call (.simpleserial_put 'r' 1 [v.result])]
    .ok (t4, 0)
  | .error f => .error f

namespace Lecture1

/-- Constant `const uint8_t modulus = 221;`. -/
def modulus : Nat := 221

/-- Constant `const uint8_t private_exponent = 5;`. -/
def private_exponent : Nat := 5

/-- Handler `rsa_uint8_fixed` of `1_rsa_uint8_fixed.c`; `input` is never loaded. -/
def rsa_uint8_fixed (fuel : Nat) (_input : List Nat) : Except Fault Run :=
  let exponent := private_exponent
  let message := 0xA0
  rsa_finish fuel modulus message exponent [.trigger_high] []

/-- Handler `rsa_uint8` of `2_rsa_uint8_variable.c`. -/
def rsa_uint8 (fuel : Nat) (input : List Nat) : Except Fault Run :=
  match input[0]?, input[1]?, input[2]? with
  | some message, some exponent, some modulus =>
    rsa_finish fuel modulus message exponent [.trigger_high] [0, 1, 2]
  | _, _, _ => .error .out_of_bounds

end Lecture1

namespace Lecture2

/-- The array `static const uint8_t stored_password[] = "infineon";`: the eight
characters followed by the terminating zero byte, so `sizeof(stored_password)` is 9. -/
def stored_password : List Nat := c_string "infineon"

/-- The loop `for (unsigned int i = 0; i < sizeof(stored_password) - 1; i++) { .. }`
entered at index `i` with `k` iterations left before the loop condition fails.
Returns `password_correct`, the indices of `input` loaded and the number of
bodies entered. -/
def check_loop (input : List Nat) :
    Nat → Nat → Nat → List Nat → Nat → Except Fault (Nat × List Nat × Nat)
  | 0, _, password_correct, loads, n => .ok (password_correct, loads, n)
  | k + 1, i, password_correct, loads, n =>
    match stored_password[i]?, input[i]? with
    | some stored, some attempt =>
      if stored ≠ attempt then
        -- password_correct = 0; break;
        .ok (0, loads ++ [i], n + 1)
      else check_loop input k (i + 1) password_correct (loads ++ [i]) (n + 1)
    | _, _ => .error .out_of_bounds

/-- Handler `check_password` of `lecture_2/1_password_fixed.c`. -/
def check_password (input : List Nat) : Except Fault Run :=
  match check_loop input (stored_password.length - 1) 0 1 [] 0 with
  | .ok (password_correct, loads, n) =>
    .ok { events := [.trigger_high, .trigger_low, .simpleserial_put 'p' 1 [password_correct]],
          loads := loads, iterations := n, ret := 0 }
  | .error f => .error f

end Lecture2

namespace Lecture4

/-- The array `static const uint8_t stored_password[] = "infineon";`: the eight
characters followed by the terminating zero byte, so `sizeof(stored_password)` is 9. -/
def stored_password : List Nat := c_string "infineon"

/-- The loop `for (unsigned int i = 0; i < sizeof(stored_password) - 1; i++) { .. }`
entered at index `i` with `k` iterations left before the loop condition fails.
Returns `password_wrong`, the indices of `input` loaded and the number of
bodies entered. -/
def check_loop (input : List Nat) :
    Nat → Nat → Nat → List Nat → Nat → Except Fault (Nat × List Nat × Nat)
  | 0, _, password_wrong, loads, n => .ok (password_wrong, loads, n)
  | k + 1, i, password_wrong, loads, n =>
    match stored_password[i]?, input[i]? with
    | some stored, some attempt =>
      -- password_wrong |= stored ^ attempt;
      check_loop input k (i + 1) ((password_wrong ||| (stored ^^^ attempt)) % 256)
        (loads ++ [i]) (n + 1)
    | _, _ => .error .out_of_bounds

/-- Handler `check_password` of `lecture_4/4_password_fixed.c`. -/
def check_password (input : List Nat) : Except Fault Run :=
  match check_loop input (stored_password.length - 1) 0 0 [] 0 with
  | .ok (password_wrong, loads, n) =>
    .ok { events := [.trigger_high, .trigger_low, .simpleserial_put 'p' 1 [password_wrong]],
          loads := loads, iterations := n, ret := 0 }
  | .error f => .error f

end Lecture4

namespace Lecture1

/-- Handler `rsa_uint8_fixed` statement by statement: the two initialised locals (no
load), `trigger_high();`, then the shared tail. -/
def rsa_uint8_fixed_timeline (fuel : Nat) (_input : List Nat) :
    Except Fault (List Action × Nat) :=
  let exponent := private_exponent
  let message := 0xA0
  let t0 : List Action := []
  let t1 := t0 ++ [.call .trigger_high]
  rsa_finish_timeline fuel modulus message exponent t1

/-- Handler `rsa_uint8` statement by statement: the three loads that initialise
`message`, `exponent` and `modulus`, `trigger_high();`, then the shared tail. -/
def rsa_uint8_timeline (fuel : Nat) (input : List Nat) : Except Fault (List Action × Nat) :=
  match input[0]?, input[1]?, input[2]? with
  | some message, some exponent, some modulus =>
    let t0 : List Action := [.load 0, .load 1, .load 2]
    let t1 := t0 ++ [.call .trigger_high]
    rsa_finish_timeline fuel modulus message exponent t1
  | _, _, _ => .error .out_of_bounds

end Lecture1

namespace Lecture2

/-- The early-exit `for` loop writing its timeline: every pass loads `input[i]` and
ends, at `break` or at the end of the body, with a `pass` carrying `password_correct`. -/
def check_loop_timeline (input : List Nat) :
    Nat → Nat → Nat → List Action → Except Fault (Nat × List Action)
  | 0, _, password_correct, t => .ok (password_correct, t)
  | k + 1, i, password_correct, t =>
    match stored_password[i]?, input[i]? with
    | some stored, some attempt =>
      if stored ≠ attempt then
        -- password_correct = 0; break;
        .ok (0, t ++ [.load i] ++ [.pass 0])
      else check_loop_timeline input k (i + 1) password_correct
        (t ++ [.load i] ++ [.pass password_correct])
    | _, _ => .error .out_of_bounds

/-- Handler `check_password` of lecture 2 statement by statement: `trigger_high();`,
`uint8_t password_correct = 1;`, the loop, `trigger_low();`,
`simpleserial_put('p', 1, &password_correct);`, `return 0;`. -/
def check_password_timeline (input : List Nat) : Except Fault (List Action × Nat) :=
  let t0 : List Action := []
  let t1 := t0 ++ [.call .trigger_high]
  let t2 := t1 ++ [.init 1]
  match check_loop_timeline input (stored_password.length - 1) 0 1 t2 with
  | .ok (password_correct, t3) =>
    let t4 := t3 ++ [.call .trigger_low]
    let t5 := t4 ++ [.call (.simpleserial_put 'p' 1 [password_correct])]
    .ok (t5, 0)
  | .error f => .error f

end Lecture2

namespace Lecture4

/-- The uniform-time `for` loop writing its timeline: every pass loads `input[i]` and
ends with a `pass` carrying `password_wrong`. -/
def check_loop_timeline (input : List Nat) :
    Nat → Nat → Nat → List Action → Except Fault (Nat × List Action)
  | 0, _, password_wrong, t => .ok (password_wrong, t)
  | k + 1, i, password_wrong, t =>
    match stored_password[i]?, input[i]? with
    | some stored, some attempt =>
      -- password_wrong |= stored ^ attempt;
      check_loop_timeline input k (i + 1) ((password_wrong ||| (stored ^^^ attempt)) % 256)
        (t ++ [.load i] ++ [.pass ((password_wrong ||| (stored ^^^ attempt)) % 256)])
    | _, _ => .error .out_of_bounds

/-- Handler `check_password` of lecture 4 statement by statement: `trigger_high();`,
`uint8_t password_wrong = 0;`, the loop, `trigger_low();`,
`simpleserial_put('p', 1, &password_wrong);`, `return 0;`. -/
def check_password_timeline (input : List Nat) : Except Fault (List Action × Nat) :=
  let t0 : List Action := []
  let t1 := t0 ++ [.call .trigger_high]
  let t2 := t1 ++ [.init 0]
  match check_loop_timeline input (stored_password.length - 1) 0 0 t2 with
  | .ok (password_wrong, t3) =>
    let t4 := t3 ++ [.call .trigger_low]
    let t5 := t4 ++ [.call (.simpleserial_put 'p' 1 [password_wrong])]
    .ok (t5, 0)
  | .error f => .error f

end Lecture4

end SecureC

namespace SecureC

/-! ## Arithmetic behind square-and-multiply -/

/-- One round of square-and-multiply keeps `result * message ^ exponent` fixed modulo `n`. -/
theorem sqmul_step (n r m e : Nat) :
    ((if e % 2 = 1 then r * m % n else r) * (m * m % n) ^ (e / 2)) % n = (r * m ^ e) % n := by
  have he : m ^ e = (m * m) ^ (e / 2) * m ^ (e % 2) := by
    conv_lhs => rw [← Nat.div_add_mod e 2]
    rw [pow_add, pow_mul, sq]
  have h1 : (m * m % n) ^ (e / 2) ≡ (m * m) ^ (e / 2) [MOD n] := (Nat.mod_modEq _ _).pow _
  have h2 : (if e % 2 = 1 then r * m % n else r) ≡ r * m ^ (e % 2) [MOD n] := by
    rcases Nat.mod_two_eq_zero_or_one e with h | h <;> simp [h, Nat.ModEq]
  have h3 := h2.mul h1
  unfold Nat.ModEq at h3
  rw [h3, he]
  congr 1
  ring

/-- Halving a nonzero number removes exactly one binary digit. -/
theorem size_half (e : Nat) (he : e ≠ 0) : Nat.size e = Nat.size (e / 2) + 1 := by
  apply le_antisymm
  · rw [Nat.size_le, pow_succ]
    have := Nat.lt_size_self (e / 2)
    omega
  · rw [Nat.succ_le_iff, Nat.lt_size]
    rcases Nat.eq_zero_or_pos (Nat.size (e / 2)) with h | h
    · rw [h]; simpa using Nat.pos_of_ne_zero he
    · obtain ⟨j, hj⟩ : ∃ j, Nat.size (e / 2) = j + 1 := ⟨Nat.size (e / 2) - 1, by omega⟩
      have h2 : j < Nat.size (e / 2) := by omega
      rw [Nat.lt_size] at h2
      rw [hj, pow_succ]
      omega

/-- A product of two bytes fits in sixteen bits. -/
theorem byte_mul_lt (a b : Nat) (ha : a < 256) (hb : b < 256) : a * b < 65536 := by
  have := Nat.mul_le_mul (Nat.le_of_lt_succ ha) (Nat.le_of_lt_succ hb)
  omega

/-! ## The loop body and the loop -/

/-- On byte-sized variables and a nonzero byte-sized modulus the loop body
completes, and none of its stores truncates. -/
theorem rsa_body_ok (modulus : Nat) (v : RsaVars) (hn : 0 < modulus) (hn8 : modulus < 256)
    (hm : v.message < 256) (hr : v.result < 256) (he : v.exponent < 256) :
    rsa_body modulus v = .ok
      { message := v.message * v.message % modulus
        exponent := v.exponent / 2
        result := if v.exponent % 2 = 1 then v.result * v.message % modulus else v.result
        tmp := v.message * v.message } := by
  have hn0 : modulus ≠ 0 := Nat.pos_iff_ne_zero.mp hn
  have hmm := byte_mul_lt _ _ hm hm
  have hrm := byte_mul_lt _ _ hr hm
  have h1 : v.message * v.message % modulus < 256 := lt_trans (Nat.mod_lt _ hn) hn8
  have h2 : v.result * v.message % modulus < 256 := lt_trans (Nat.mod_lt _ hn) hn8
  have h3 : v.exponent / 2 < 256 := by omega
  rcases Nat.mod_two_eq_zero_or_one v.exponent with h | h
  · simp [rsa_body, rsa_multiply, rsa_square, rem, Nat.and_one_is_mod, Nat.shiftRight_eq_div_pow,
      h, hn0, Nat.mod_eq_of_lt, hmm, h1, h3]
  · simp [rsa_body, rsa_multiply, rsa_square, rem, Nat.and_one_is_mod, Nat.shiftRight_eq_div_pow,
      h, hn0, Nat.mod_eq_of_lt, hmm, hrm, h1, h2, h3]

/-- The loop does nothing when entered with a zero exponent, whatever the budget. -/
theorem rsa_while_zero (modulus fuel : Nat) (v : RsaVars) (n : Nat) (he : v.exponent = 0) :
    rsa_while modulus fuel v n = .ok (v, n) := by
  cases fuel <;> simp [rsa_while, he]

/-- Unfolding of the loop at a nonzero exponent with budget left. -/
theorem rsa_while_succ (modulus fuel : Nat) (v : RsaVars) (n : Nat) (he : v.exponent ≠ 0) :
    rsa_while modulus (fuel + 1) v n =
      match rsa_body modulus v with
      | .ok v1 => rsa_while modulus fuel v1 (n + 1)
      | .error f => .error f := by
  rw [rsa_while]
  simp [he]

/-- Total correctness of the loop on byte-sized variables: with a budget that
covers the binary digits of the exponent it completes after exactly
`Nat.size exponent` bodies, and the final `result` is congruent to
`result * message ^ exponent`; it is reduced below the modulus as soon as one
body ran. -/
theorem rsa_while_ok (modulus : Nat) (hn : 0 < modulus) (hn8 : modulus < 256) :
    ∀ (fuel : Nat) (v : RsaVars) (n : Nat), v.exponent < 2 ^ fuel → v.exponent < 256 →
      v.message < 256 → v.result < 256 →
      ∃ w, rsa_while modulus fuel v n = .ok (w, n + Nat.size v.exponent) ∧
        w.exponent = 0 ∧ w.result < 256 ∧
        w.result % modulus = (v.result * v.message ^ v.exponent) % modulus ∧
        (v.exponent ≠ 0 → w.result < modulus) ∧ (v.exponent = 0 → w.result = v.result) := by
  intro fuel
  induction fuel with
  | zero =>
    intro v n hf _ _ hr
    have h0 : v.exponent = 0 := by simpa using hf
    exact ⟨v, by simp [rsa_while_zero, h0], h0, hr, by simp [h0], fun h => absurd h0 h, fun _ => rfl⟩
  | succ fuel ih =>
    intro v n hf he hm hr
    by_cases h0 : v.exponent = 0
    · exact ⟨v, by simp [rsa_while_zero, h0], h0, hr, by simp [h0], fun h => absurd h0 h,
        fun _ => rfl⟩
    · have hlt : v.message * v.message % modulus < 256 := lt_trans (Nat.mod_lt _ hn) hn8
      have hrl : (if v.exponent % 2 = 1 then v.result * v.message % modulus else v.result) < 256 := by
        split
        · exact lt_trans (Nat.mod_lt _ hn) hn8
        · exact hr
      obtain ⟨w, hw, hwe, hwr, hcong, hred, hkeep⟩ :=
        ih { message := v.message * v.message % modulus
             exponent := v.exponent / 2
             result := if v.exponent % 2 = 1 then v.result * v.message % modulus else v.result
             tmp := v.message * v.message } (n + 1)
          (by simp only; rw [pow_succ] at hf; omega) (by simp only; omega) hlt hrl
      refine ⟨w, ?_, hwe, hwr, ?_, ?_, fun h => absurd h h0⟩
      · rw [rsa_while_succ _ _ _ _ h0, rsa_body_ok modulus v hn hn8 hm hr he]
        simp only
        rw [hw, size_half _ h0]
        simp only
        congr 2
        omega
      · rw [hcong]
        exact sqmul_step modulus v.result v.message v.exponent
      · intro _
        by_cases h1 : v.exponent / 2 = 0
        · have hodd : v.exponent % 2 = 1 := by omega
          have := hkeep h1
          simp only [hodd, if_true] at this
          rw [this]
          exact Nat.mod_lt _ hn
        · exact hred h1

/-! ## The comparators -/

/-- The stored password of lecture 2 as explicit bytes. -/
theorem Lecture2.stored_password_early_eq :
    Lecture2.stored_password = [105, 110, 102, 105, 110, 101, 111, 110, 0] := by decide

/-- The stored password of lecture 4 as explicit bytes. -/
theorem Lecture4.stored_password_uniform_eq :
    Lecture4.stored_password = [105, 110, 102, 105, 110, 101, 111, 110, 0] := by decide

/-- Early-exit loop, no mismatch in the remaining window: all `k` bodies run and
the flag is left as it was. -/
theorem Lecture2.check_loop_match (input : List Nat) :
    ∀ (k i pc : Nat) (loads : List Nat) (n : Nat), i + k ≤ 8 → i + k ≤ input.length →
      (∀ j, i ≤ j → j < i + k → input[j]? = Lecture2.stored_password[j]?) →
      Lecture2.check_loop input k i pc loads n = .ok (pc, loads ++ List.range' i k, n + k) := by
  intro k
  induction k with
  | zero => intro i pc loads n _ _ _; simp [Lecture2.check_loop]
  | succ k ih =>
    intro i pc loads n h8 hlen hall
    have hi : input[i]? = Lecture2.stored_password[i]? := hall i le_rfl (by omega)
    have hs : i < Lecture2.stored_password.length := by
      rw [Lecture2.stored_password_early_eq]; simp; omega
    rw [List.getElem?_eq_getElem hs] at hi
    rw [Lecture2.check_loop, hi, List.getElem?_eq_getElem hs]
    simp only [ne_eq, not_true_eq_false, if_false]
    rw [ih (i + 1) pc (loads ++ [i]) (n + 1) (by omega) (by omega)
      (fun j h1 h2 => hall j (by omega) (by omega))]
    simp [List.range'_succ]
    omega

/-- Early-exit loop, first mismatch at index `m` of the remaining window: the
loop stops right after loading `input[m]` with the flag cleared. -/
theorem Lecture2.check_loop_mismatch (input : List Nat) :
    ∀ (k i pc : Nat) (loads : List Nat) (n m : Nat), i ≤ m → m < i + k → i + k ≤ 8 →
      m < input.length →
      (∀ j, i ≤ j → j < m → input[j]? = Lecture2.stored_password[j]?) →
      input[m]? ≠ Lecture2.stored_password[m]? →
      Lecture2.check_loop input k i pc loads n =
        .ok (0, loads ++ List.range' i (m + 1 - i), n + (m + 1 - i)) := by
  intro k
  induction k with
  | zero => intro i pc loads n m h1 h2; omega
  | succ k ih =>
    intro i pc loads n m him hmk h8 hlen hall hne
    have hs : i < Lecture2.stored_password.length := by
      rw [Lecture2.stored_password_early_eq]; simp; omega
    have hil : i < input.length := by omega
    rcases Nat.eq_or_lt_of_le him with heq | hlt
    · subst heq
      rw [List.getElem?_eq_getElem hs, List.getElem?_eq_getElem hil] at hne
      have hne2 : Lecture2.stored_password[i] ≠ input[i] := fun h => hne (by rw [h])
      rw [Lecture2.check_loop, List.getElem?_eq_getElem hs, List.getElem?_eq_getElem hil]
      simp [hne2]
    · have hi : input[i]? = Lecture2.stored_password[i]? := hall i le_rfl hlt
      rw [List.getElem?_eq_getElem hs] at hi
      rw [Lecture2.check_loop, hi, List.getElem?_eq_getElem hs]
      simp only [ne_eq, not_true_eq_false, if_false]
      rw [ih (i + 1) pc (loads ++ [i]) (n + 1) m (by omega) (by omega) (by omega) hlen
        (fun j h1 h2 => hall j (by omega) h2) hne]
      have : m + 1 - i = (m + 1 - (i + 1)) + 1 := by omega
      rw [this]
      simp [List.range'_succ]
      omega

/-- Uniform-time loop: all `k` bodies run, each loading one byte of `input`, and
the accumulator collects the truncated OR of the byte differences. -/
theorem Lecture4.check_loop_run (input : List Nat) :
    ∀ (k i pw : Nat) (loads : List Nat) (n : Nat), i + k ≤ 8 → i + k ≤ input.length →
      Lecture4.check_loop input k i pw loads n =
        .ok ((List.range' i k).foldl
              (fun acc j =>
                (acc ||| ((Lecture4.stored_password[j]?).getD 0 ^^^ (input[j]?).getD 0)) % 256) pw,
            loads ++ List.range' i k, n + k) := by
  intro k
  induction k with
  | zero => intro i pw loads n _ _; simp [Lecture4.check_loop]
  | succ k ih =>
    intro i pw loads n h8 hlen
    have hs : i < Lecture4.stored_password.length := by
      rw [Lecture4.stored_password_uniform_eq]; simp; omega
    have hil : i < input.length := by omega
    rw [Lecture4.check_loop, List.getElem?_eq_getElem hs, List.getElem?_eq_getElem hil]
    simp only
    rw [ih (i + 1) _ (loads ++ [i]) (n + 1) (by omega) (by omega)]
    simp [List.range'_succ, List.getElem?_eq_getElem hs, List.getElem?_eq_getElem hil]
    omega

/-- On bytes the store into `password_wrong` never truncates. -/
theorem or_xor_fold_byte (f g : Nat → Nat) (hf : ∀ j, f j < 256) (hg : ∀ j, g j < 256) :
    ∀ (l : List Nat) (pw : Nat), pw < 256 →
      l.foldl (fun acc j => (acc ||| (f j ^^^ g j)) % 256) pw =
        l.foldl (fun acc j => acc ||| (f j ^^^ g j)) pw ∧
      l.foldl (fun acc j => acc ||| (f j ^^^ g j)) pw < 256 := by
  intro l
  induction l with
  | nil => intro pw hpw; simpa using hpw
  | cons a l ih =>
    intro pw hpw
    have hx : f a ^^^ g a < 256 := @Nat.xor_lt_two_pow (f a) (g a) 8 (hf a) (hg a)
    have ho : pw ||| (f a ^^^ g a) < 256 := @Nat.or_lt_two_pow pw (f a ^^^ g a) 8 hpw hx
    simp only [List.foldl_cons]
    rw [Nat.mod_eq_of_lt ho]
    exact ih _ ho

/-- A running OR is zero exactly when it started at zero and every term is zero. -/
theorem or_fold_eq_zero (h : Nat → Nat) :
    ∀ (l : List Nat) (pw : Nat),
      l.foldl (fun acc j => acc ||| h j) pw = 0 ↔ pw = 0 ∧ ∀ j ∈ l, h j = 0 := by
  intro l
  induction l with
  | nil => intro pw; simp
  | cons a l ih =>
    intro pw
    simp only [List.foldl_cons, ih, List.mem_cons, forall_eq_or_imp]
    constructor
    · rintro ⟨h1, h2⟩
      have ha : pw = 0 ∧ h a = 0 := by
        constructor
        · apply Nat.eq_of_testBit_eq; intro t
          have := congrArg (fun x => x.testBit t) h1
          simp only [Nat.testBit_or, Nat.zero_testBit, Bool.or_eq_false_iff] at this
          simpa using this.1
        · apply Nat.eq_of_testBit_eq; intro t
          have := congrArg (fun x => x.testBit t) h1
          simp only [Nat.testBit_or, Nat.zero_testBit, Bool.or_eq_false_iff] at this
          simpa using this.2
      exact ⟨ha.1, ha.2, h2⟩
    · rintro ⟨h1, h2, h3⟩
      exact ⟨by simp [h1, h2], h3⟩

/-! ## Whole handler runs -/

/-- Run of the shared tail of both exponentiation handlers on byte-sized
operands with a nonzero modulus and a budget covering the exponent. -/
theorem rsa_finish_run (fuel modulus message exponent : Nat) (events : List Event)
    (loads : List Nat) (hn : 0 < modulus) (hn8 : modulus < 256) (hm : message < 256)
    (he : exponent < 256) (hfuel : exponent < 2 ^ fuel) :
    rsa_finish fuel modulus message exponent events loads = .ok
      { events := events ++ [.trigger_low, .simpleserial_put 'r' 1
          [if exponent = 0 then 1 else message ^ exponent % modulus]]
        loads := loads
        iterations := Nat.size exponent
        ret := 0 } := by
  obtain ⟨w, hw, _, _, hcong, hred, hkeep⟩ :=
    rsa_while_ok modulus hn hn8 fuel ⟨message, exponent, 1, 0⟩ 0 hfuel he hm (by norm_num)
  have hres : w.result = if exponent = 0 then 1 else message ^ exponent % modulus := by
    split
    · next h => exact hkeep h
    · next h =>
      have hlt := hred h
      simp only [one_mul] at hcong
      rw [← hcong, Nat.mod_eq_of_lt hlt]
  simp [rsa_finish, hw, hres]

/-- Run of `rsa_uint8` on three byte-sized operands with a nonzero modulus. -/
theorem Lecture1.rsa_uint8_run (fuel message exponent modulus : Nat) (hn : 0 < modulus)
    (hn8 : modulus < 256) (hm : message < 256) (he : exponent < 256)
    (hfuel : exponent < 2 ^ fuel) :
    Lecture1.rsa_uint8 fuel [message, exponent, modulus] = .ok
      { events := [.trigger_high, .trigger_low, .simpleserial_put 'r' 1
          [if exponent = 0 then 1 else message ^ exponent % modulus]]
        loads := [0, 1, 2]
        iterations := Nat.size exponent
        ret := 0 } := by
  simp [Lecture1.rsa_uint8, rsa_finish_run fuel modulus message exponent _ _ hn hn8 hm he hfuel]

/-- A budget of eight iterations covers every 8-bit exponent. -/
theorem byte_lt_two_pow (fuel e : Nat) (hfuel : 8 ≤ fuel) (he : e < 256) : e < 2 ^ fuel :=
  lt_of_lt_of_le he (Nat.pow_le_pow_right (Nat.succ_pos 1) hfuel)

/-- The binary length as a ceiling logarithm. -/
theorem size_eq_clog (e : Nat) : Nat.size e = Nat.clog 2 (e + 1) := by
  apply le_antisymm
  · rw [Nat.size_le]
    exact Nat.lt_of_succ_le (Nat.le_pow_clog (by decide) (e + 1))
  · rw [← Nat.le_pow_iff_clog_le (by decide)]
    exact Nat.lt_size_self e

/-- The number 5 has three binary digits. -/
theorem size_five : Nat.size 5 = 3 := by
  apply le_antisymm
  · rw [Nat.size_le]; decide
  · rw [Nat.succ_le_iff, Nat.lt_size]; decide

/-- Run of the early-exit comparator on an attempt that matches in all eight places. -/
theorem Lecture2.check_password_match (input : List Nat) (hlen : 8 ≤ input.length)
    (hall : ∀ i, i < 8 → input[i]? = Lecture2.stored_password[i]?) :
    Lecture2.check_password input = .ok
      { events := [.trigger_high, .trigger_low, .simpleserial_put 'p' 1 [1]]
        loads := List.range 8
        iterations := 8
        ret := 0 } := by
  have hb : Lecture2.stored_password.length - 1 = 8 := by simp [Lecture2.stored_password_early_eq]
  rw [Lecture2.check_password, hb,
    Lecture2.check_loop_match input 8 0 1 [] 0 (by omega) (by omega)
      (fun j _ h => hall j (by omega))]
  simp [List.range_eq_range']

/-- Run of the early-exit comparator on an attempt whose first mismatch is at index `m`. -/
theorem Lecture2.check_password_mismatch (input : List Nat) (m : Nat) (hm : m < 8)
    (hlen : m < input.length)
    (hall : ∀ j, j < m → input[j]? = Lecture2.stored_password[j]?)
    (hne : input[m]? ≠ Lecture2.stored_password[m]?) :
    Lecture2.check_password input = .ok
      { events := [.trigger_high, .trigger_low, .simpleserial_put 'p' 1 [0]]
        loads := List.range (m + 1)
        iterations := m + 1
        ret := 0 } := by
  have hb : Lecture2.stored_password.length - 1 = 8 := by simp [Lecture2.stored_password_early_eq]
  rw [Lecture2.check_password, hb,
    Lecture2.check_loop_mismatch input 8 0 1 [] 0 m (by omega) (by omega) (by omega) hlen
      (fun j _ h => hall j h) hne]
  simp [List.range_eq_range']

/-- An attempt that does not match in all eight places has a first mismatch. -/
theorem Lecture2.first_mismatch (input : List Nat)
    (h : ¬ ∀ i, i < 8 → input[i]? = Lecture2.stored_password[i]?) :
    ∃ m, m < 8 ∧ input[m]? ≠ Lecture2.stored_password[m]? ∧
      ∀ j, j < m → input[j]? = Lecture2.stored_password[j]? := by
  have hex : ∃ m, m < 8 ∧ input[m]? ≠ Lecture2.stored_password[m]? := by
    by_contra hc
    exact h (fun i hi => by_contra (fun hne => hc ⟨i, hi, hne⟩))
  refine ⟨Nat.find hex, (Nat.find_spec hex).1, (Nat.find_spec hex).2, fun j hj => ?_⟩
  by_contra hne
  exact Nat.find_min hex hj ⟨lt_trans hj (Nat.find_spec hex).1, hne⟩

/-- Run of the uniform-time comparator on any attempt of at least eight bytes. -/
theorem Lecture4.check_password_run (input : List Nat) (hlen : 8 ≤ input.length) :
    Lecture4.check_password input = .ok
      { events := [.trigger_high, .trigger_low, .simpleserial_put 'p' 1
          [(List.range 8).foldl (fun acc j =>
            (acc ||| ((Lecture4.stored_password[j]?).getD 0 ^^^ (input[j]?).getD 0)) % 256) 0]]
        loads := List.range 8
        iterations := 8
        ret := 0 } := by
  have hb : Lecture4.stored_password.length - 1 = 8 := by simp [Lecture4.stored_password_uniform_eq]
  rw [Lecture4.check_password, hb,
    Lecture4.check_loop_run input 8 0 0 [] 0 (by omega) (by omega)]
  simp [List.range_eq_range']

/-- Reading a list of bytes with a zero default gives a byte. -/
theorem getD_byte (l : List Nat) (hl : ∀ b ∈ l, b < 256) (j : Nat) : (l[j]?).getD 0 < 256 := by
  cases h : l[j]? with
  | none => simp
  | some b => simpa using hl b (List.getElem?_mem h)

/-- The stored password of lecture 4 consists of bytes. -/
theorem Lecture4.stored_password_bytes : ∀ b ∈ Lecture4.stored_password, b < 256 := by
  rw [Lecture4.stored_password_uniform_eq]; decide

/-- On a byte buffer the accumulator of the uniform-time comparator is the plain
OR of the byte differences. -/
theorem Lecture4.accumulator_exact (input : List Nat) (hbytes : ∀ b ∈ input, b < 256) :
    (List.range 8).foldl (fun acc j =>
        (acc ||| ((Lecture4.stored_password[j]?).getD 0 ^^^ (input[j]?).getD 0)) % 256) 0 =
      (List.range 8).foldl (fun acc j =>
        acc ||| ((Lecture4.stored_password[j]?).getD 0 ^^^ (input[j]?).getD 0)) 0 :=
  (or_xor_fold_byte (fun j => (Lecture4.stored_password[j]?).getD 0) (fun j => (input[j]?).getD 0)
    (getD_byte _ Lecture4.stored_password_bytes) (getD_byte _ hbytes) (List.range 8) 0
    (by decide)).1

/-- The OR of the byte differences vanishes exactly on attempts that match in
all eight places. -/
theorem Lecture4.accumulator_zero_iff (input : List Nat) (hlen : 8 ≤ input.length) :
    (List.range 8).foldl (fun acc j =>
        acc ||| ((Lecture4.stored_password[j]?).getD 0 ^^^ (input[j]?).getD 0)) 0 = 0 ↔
      ∀ i, i < 8 → input[i]? = Lecture4.stored_password[i]? := by
  rw [or_fold_eq_zero (fun j => (Lecture4.stored_password[j]?).getD 0 ^^^ (input[j]?).getD 0)]
  simp only [true_and, List.mem_range, Nat.xor_eq_zero]
  have key : ∀ i, i < 8 → ((Lecture4.stored_password[i]?).getD 0 = (input[i]?).getD 0 ↔
      input[i]? = Lecture4.stored_password[i]?) := by
    intro i hi
    have hs : i < Lecture4.stored_password.length := by
      rw [Lecture4.stored_password_uniform_eq]; simp; omega
    have hil : i < input.length := by omega
    rw [List.getElem?_eq_getElem hs, List.getElem?_eq_getElem hil]
    simp only [Option.getD_some, Option.some.injEq]
    exact eq_comm
  constructor
  · intro h i hi; exact (key i hi).1 (h i hi)
  · intro h i hi; exact (key i hi).2 (h i hi)

/-- Both files store the same password. -/
theorem stored_password_same : Lecture2.stored_password = Lecture4.stored_password := rfl

/-- The first eight bytes of either stored password are the characters of "infineon". -/
theorem stored_password_ascii :
    ∀ i, i < 8 → Lecture2.stored_password[i]? = (ascii "infineon")[i]? := by decide

/-! ## Exponentiation: results -/

/-- C1 (amended): for every 8-bit message, exponent and modulus with modulus > 0 and every
budget of at least eight iterations, `rsa_uint8` on the input bytes
[message, exponent, modulus] completes and emits under tag 'r' the single byte
`message ^ exponent % modulus` (power and remainder over the natural numbers), except
for exponent 0 with modulus 1, where it emits 1. -/
theorem rsa_uint8_emits_power_mod (fuel message exponent modulus : Nat) (hfuel : 8 ≤ fuel)
    (hm : message < 256) (he : exponent < 256) (hn8 : modulus < 256) (hn : 0 < modulus) :
    ∃ r, Lecture1.rsa_uint8 fuel [message, exponent, modulus] = .ok r ∧
      r.events = [.trigger_high, .trigger_low, .simpleserial_put 'r' 1
        [if exponent = 0 ∧ modulus = 1 then 1 else message ^ exponent % modulus]] := by
  refine ⟨_, Lecture1.rsa_uint8_run fuel message exponent modulus hn hn8 hm he
    (byte_lt_two_pow fuel exponent hfuel he), ?_⟩
  by_cases h0 : exponent = 0
  · subst h0
    by_cases h1 : modulus = 1
    · simp [h1]
    · have h2 : 1 % modulus = 1 := Nat.mod_eq_of_lt (by omega)
      simp [h1, h2]
  · simp [h0]

/-- Instance of `rsa_uint8_emits_power_mod`: message 3, exponent 4, modulus 5 gives 1. -/
theorem rsa_uint8_emits_power_mod_witness :
    (8 ≤ 8 ∧ 3 < 256 ∧ 4 < 256 ∧ 5 < 256 ∧ 0 < 5) ∧
      ∃ r, Lecture1.rsa_uint8 8 [3, 4, 5] = .ok r ∧
        r.events = [.trigger_high, .trigger_low, .simpleserial_put 'r' 1 [1]] :=
  ⟨by decide,
    rsa_uint8_emits_power_mod 8 3 4 5 (by decide) (by decide) (by decide) (by decide) (by decide)⟩

/-- C1 as stated fails for exponent 0 and modulus 1: on the bytes [3, 0, 1] the handler
emits 1, whereas 3 ^ 0 % 1 is 0. -/
theorem rsa_uint8_power_mod_counterexample :
    (3 < 256 ∧ 0 < 256 ∧ 1 < 256 ∧ 0 < 1) ∧
      Lecture1.rsa_uint8 8 [3, 0, 1] = .ok
        { events := [.trigger_high, .trigger_low, .simpleserial_put 'r' 1 [1]]
          loads := [0, 1, 2], iterations := 0, ret := 0 } ∧
      3 ^ 0 % 1 = 0 ∧
      ¬ ∃ r, Lecture1.rsa_uint8 8 [3, 0, 1] = .ok r ∧
        r.events = [.trigger_high, .trigger_low, .simpleserial_put 'r' 1 [3 ^ 0 % 1]] := by
  refine ⟨by decide, by decide, by decide, ?_⟩
  rintro ⟨r, hr, hev⟩
  have h : Lecture1.rsa_uint8 8 [3, 0, 1] = .ok
      { events := [.trigger_high, .trigger_low, .simpleserial_put 'r' 1 [1]]
        loads := [0, 1, 2], iterations := 0, ret := 0 } := by decide
  rw [h] at hr
  cases hr
  revert hev
  decide

/-- C5 (amended): for every message and every modulus, `rsa_uint8` with exponent 0
enters the loop body zero times and emits 1, the initial value of `result`, whatever
the budget; this is `1 % modulus` whenever modulus > 1. -/
theorem rsa_uint8_exponent_zero (fuel message modulus : Nat) :
    Lecture1.rsa_uint8 fuel [message, 0, modulus] = .ok
        { events := [.trigger_high, .trigger_low, .simpleserial_put 'r' 1 [1]]
          loads := [0, 1, 2], iterations := 0, ret := 0 } ∧
      (1 < modulus → 1 % modulus = 1) := by
  refine ⟨?_, fun h => Nat.mod_eq_of_lt h⟩
  simp [Lecture1.rsa_uint8, rsa_finish, rsa_while_zero]

/-- Instance of `rsa_uint8_exponent_zero`: exponent 0 with modulus 7 gives 1. -/
theorem rsa_uint8_exponent_zero_witness :
    1 < 7 ∧
      Lecture1.rsa_uint8 8 [9, 0, 7] = .ok
        { events := [.trigger_high, .trigger_low, .simpleserial_put 'r' 1 [1]]
          loads := [0, 1, 2], iterations := 0, ret := 0 } ∧
      1 % 7 = 1 :=
  ⟨by decide, (rsa_uint8_exponent_zero 8 9 7).1, (rsa_uint8_exponent_zero 8 9 7).2 (by decide)⟩

/-- C5 as stated fails for modulus 1: on the bytes [160, 0, 1] the handler emits 1,
whereas 1 % 1 is 0. -/
theorem rsa_uint8_exponent_zero_counterexample :
    (160 < 256 ∧ 0 < 1) ∧
      Lecture1.rsa_uint8 8 [160, 0, 1] = .ok
        { events := [.trigger_high, .trigger_low, .simpleserial_put 'r' 1 [1]]
          loads := [0, 1, 2], iterations := 0, ret := 0 } ∧
      1 % 1 = 0 ∧
      Lecture1.rsa_uint8 8 [160, 0, 1] ≠ .ok
        { events := [.trigger_high, .trigger_low, .simpleserial_put 'r' 1 [1 % 1]]
          loads := [0, 1, 2], iterations := 0, ret := 0 } := by
  decide

/-- C6: for every input buffer and every budget of at least three iterations,
`rsa_uint8_fixed` loads nothing from the input and emits under tag 'r' the byte 62,
which is `0xA0 ^ private_exponent % modulus`, that is 160 ^ 5 % 221. -/
theorem rsa_uint8_fixed_emits_62 (fuel : Nat) (input : List Nat) (hfuel : 3 ≤ fuel) :
    Lecture1.rsa_uint8_fixed fuel input = .ok
        { events := [.trigger_high, .trigger_low, .simpleserial_put 'r' 1 [62]]
          loads := [], iterations := 3, ret := 0 } ∧
      0xA0 ^ Lecture1.private_exponent % Lecture1.modulus = 62 ∧
      Lecture1.private_exponent = 5 ∧ Lecture1.modulus = 221 ∧ 160 ^ 5 % 221 = 62 := by
  refine ⟨?_, by decide, rfl, rfl, by decide⟩
  have hf : 5 < 2 ^ fuel := lt_of_lt_of_le (by decide) (Nat.pow_le_pow_right (Nat.succ_pos 1) hfuel)
  have hs : Nat.size 5 = 3 := size_five
  have hrun := rsa_finish_run fuel 221 160 5 [.trigger_high] [] (by decide) (by decide)
    (by decide) (by decide) hf
  rw [hs] at hrun
  simpa [Lecture1.rsa_uint8_fixed, Lecture1.private_exponent, Lecture1.modulus] using hrun

/-- Instance of `rsa_uint8_fixed_emits_62` on an empty command buffer. -/
theorem rsa_uint8_fixed_emits_62_witness :
    3 ≤ 8 ∧
      Lecture1.rsa_uint8_fixed 8 [] = .ok
        { events := [.trigger_high, .trigger_low, .simpleserial_put 'r' 1 [62]]
          loads := [], iterations := 3, ret := 0 } :=
  ⟨by decide, (rsa_uint8_fixed_emits_62 8 [] (by decide)).1⟩

/-! ## Comparators: results -/

/-- C2: for every input buffer of at least eight bytes the early-exit `check_password`
completes and emits under tag 'p' the byte 1 if `input[i]` equals the i-th byte of
"infineon" for every i in 0..7, and the byte 0 otherwise; the attempt "infineon" gives 1,
the attempts "xnfineon" and "infinexn" give 0 (each sent in a 10-byte buffer). -/
theorem check_password_early_result (input : List Nat) (hlen : 8 ≤ input.length) :
    (∃ r, Lecture2.check_password input = .ok r ∧
      ((∀ i, i < 8 → input[i]? = (ascii "infineon")[i]?) →
        r.events = [.trigger_high, .trigger_low, .simpleserial_put 'p' 1 [1]]) ∧
      ((¬ ∀ i, i < 8 → input[i]? = (ascii "infineon")[i]?) →
        r.events = [.trigger_high, .trigger_low, .simpleserial_put 'p' 1 [0]])) ∧
    (∃ r, Lecture2.check_password (ascii "infineon" ++ [0, 0]) = .ok r ∧
      r.events = [.trigger_high, .trigger_low, .simpleserial_put 'p' 1 [1]]) ∧
    (∃ r, Lecture2.check_password (ascii "xnfineon" ++ [0, 0]) = .ok r ∧
      r.events = [.trigger_high, .trigger_low, .simpleserial_put 'p' 1 [0]]) ∧
    (∃ r, Lecture2.check_password (ascii "infinexn" ++ [0, 0]) = .ok r ∧
      r.events = [.trigger_high, .trigger_low, .simpleserial_put 'p' 1 [0]]) := by
  refine ⟨?_, ⟨_, rfl, rfl⟩, ⟨_, rfl, rfl⟩, ⟨_, rfl, rfl⟩⟩
  by_cases hall : ∀ i, i < 8 → input[i]? = Lecture2.stored_password[i]?
  · refine ⟨_, Lecture2.check_password_match input hlen hall, fun _ => rfl, fun h => ?_⟩
    exact absurd (fun i hi => (hall i hi).trans (stored_password_ascii i hi)) h
  · obtain ⟨m, hm, hne, hbefore⟩ := Lecture2.first_mismatch input hall
    refine ⟨_, Lecture2.check_password_mismatch input m hm (by omega) hbefore hne,
      fun h => ?_, fun _ => rfl⟩
    exact absurd (fun i hi => (h i hi).trans (stored_password_ascii i hi).symm) hall

/-- Instance of `check_password_early_result`: the attempt "infineon" padded to ten bytes. -/
theorem check_password_early_result_witness :
    8 ≤ (ascii "infineon" ++ [7, 9]).length ∧
      ∃ r, Lecture2.check_password (ascii "infineon" ++ [7, 9]) = .ok r ∧
        r.events = [.trigger_high, .trigger_low, .simpleserial_put 'p' 1 [1]] := by
  refine ⟨by decide, ?_⟩
  obtain ⟨r, hr, h1, _⟩ := (check_password_early_result (ascii "infineon" ++ [7, 9]) (by decide)).1
  exact ⟨r, hr, h1 (by decide)⟩

/-- C3: for every input buffer of at least eight bytes the uniform-time
`check_password` completes and emits under tag 'p' the bitwise OR over i in 0..7 of
`stored_password[i] ^ input[i]`, and this byte is 0 if and only if `input[i]` equals the
i-th byte of "infineon" for every i in 0..7. -/
theorem check_password_uniform_result (input : List Nat) (hlen : 8 ≤ input.length)
    (hbytes : ∀ b ∈ input, b < 256) :
    ∃ r w, Lecture4.check_password input = .ok r ∧
      r.events = [.trigger_high, .trigger_low, .simpleserial_put 'p' 1 [w]] ∧
      w = (List.range 8).foldl (fun acc i =>
        acc ||| ((Lecture4.stored_password[i]?).getD 0 ^^^ (input[i]?).getD 0)) 0 ∧
      w < 256 ∧
      (w = 0 ↔ ∀ i, i < 8 → input[i]? = (ascii "infineon")[i]?) ∧
      (w ≠ 0 ↔ ∃ i, i < 8 ∧ input[i]? ≠ (ascii "infineon")[i]?) := by
  have hiff : (List.range 8).foldl (fun acc i =>
        acc ||| ((Lecture4.stored_password[i]?).getD 0 ^^^ (input[i]?).getD 0)) 0 = 0 ↔
      ∀ i, i < 8 → input[i]? = (ascii "infineon")[i]? := by
    rw [Lecture4.accumulator_zero_iff input hlen]
    constructor
    · intro h i hi; exact (h i hi).trans (stored_password_ascii i hi)
    · intro h i hi; exact (h i hi).trans (stored_password_ascii i hi).symm
  refine ⟨_, _, Lecture4.check_password_run input hlen, ?_, rfl, ?_, hiff, ?_⟩
  · rw [Lecture4.accumulator_exact input hbytes]
  · exact (or_xor_fold_byte (fun j => (Lecture4.stored_password[j]?).getD 0)
      (fun j => (input[j]?).getD 0) (getD_byte _ Lecture4.stored_password_bytes)
      (getD_byte _ hbytes) (List.range 8) 0 (by decide)).2
  · rw [Ne, hiff]
    constructor
    · intro h
      by_contra hc
      exact h (fun i hi => by_contra (fun hne => hc ⟨i, hi, hne⟩))
    · rintro ⟨i, hi, hne⟩ h
      exact hne (h i hi)

/-- Instance of `check_password_uniform_result`: the attempt "infinexn" padded to ten
bytes makes the comparator emit 'o' ^ 'x', which is 23. -/
theorem check_password_uniform_result_witness :
    (8 ≤ (ascii "infinexn" ++ [0, 0]).length ∧ ∀ b ∈ ascii "infinexn" ++ [0, 0], b < 256) ∧
      ∃ r w, Lecture4.check_password (ascii "infinexn" ++ [0, 0]) = .ok r ∧
        r.events = [.trigger_high, .trigger_low, .simpleserial_put 'p' 1 [w]] ∧ w = 23 := by
  refine ⟨by decide, ?_⟩
  obtain ⟨r, w, hr, hev, hw, _⟩ :=
    check_password_uniform_result (ascii "infinexn" ++ [0, 0]) (by decide) (by decide)
  exact ⟨r, w, hr, hev, hw.trans (by decide)⟩

/-- C4: for every input buffer x of at least eight bytes, both comparators complete, and
the early-exit one emits 1 if and only if the uniform-time one emits 0. -/
theorem comparators_agree (x : List Nat) (hlen : 8 ≤ x.length) (hbytes : ∀ b ∈ x, b < 256) :
    ∃ ra rb a b, Lecture2.check_password x = .ok ra ∧ Lecture4.check_password x = .ok rb ∧
      ra.events = [.trigger_high, .trigger_low, .simpleserial_put 'p' 1 [a]] ∧
      rb.events = [.trigger_high, .trigger_low, .simpleserial_put 'p' 1 [b]] ∧
      (a = 1 ↔ b = 0) := by
  have hb := Lecture4.accumulator_zero_iff x hlen
  rw [← Lecture4.accumulator_exact x hbytes] at hb
  by_cases hall : ∀ i, i < 8 → x[i]? = Lecture2.stored_password[i]?
  · refine ⟨_, _, _, _, Lecture2.check_password_match x hlen hall,
      Lecture4.check_password_run x hlen, rfl, rfl, ?_⟩
    exact ⟨fun _ => hb.2 hall, fun _ => rfl⟩
  · obtain ⟨m, hm, hne, hbefore⟩ := Lecture2.first_mismatch x hall
    refine ⟨_, _, _, _, Lecture2.check_password_mismatch x m hm (by omega) hbefore hne,
      Lecture4.check_password_run x hlen, rfl, rfl, ?_⟩
    exact ⟨fun h => absurd h (by decide), fun h => absurd (hb.1 h) hall⟩

/-- Instance of `comparators_agree`: the attempt "xnfineon" padded to ten bytes. -/
theorem comparators_agree_witness :
    (8 ≤ (ascii "xnfineon" ++ [0, 0]).length ∧ ∀ b ∈ ascii "xnfineon" ++ [0, 0], b < 256) ∧
      ∃ ra rb a b, Lecture2.check_password (ascii "xnfineon" ++ [0, 0]) = .ok ra ∧
        Lecture4.check_password (ascii "xnfineon" ++ [0, 0]) = .ok rb ∧
        ra.events = [.trigger_high, .trigger_low, .simpleserial_put 'p' 1 [a]] ∧
        rb.events = [.trigger_high, .trigger_low, .simpleserial_put 'p' 1 [b]] ∧
        (a = 1 ↔ b = 0) :=
  ⟨by decide, comparators_agree (ascii "xnfineon" ++ [0, 0]) (by decide) (by decide)⟩

/-! ## Comparators: accesses to the attempt -/

/-- C7: for any two input buffers of at least eight bytes the uniform-time
`check_password` completes on both, loads exactly the attempt indices 0, 1, .., 7 in that
order (eight loads) and enters the loop body eight times, so the sequence of loaded
indices and the number of iterations are the same for both inputs. -/
theorem check_password_uniform_accesses (x y : List Nat) (hx : 8 ≤ x.length)
    (hy : 8 ≤ y.length) :
    ∃ rx ry, Lecture4.check_password x = .ok rx ∧ Lecture4.check_password y = .ok ry ∧
      rx.loads = [0, 1, 2, 3, 4, 5, 6, 7] ∧ rx.loads.length = 8 ∧ rx.iterations = 8 ∧
      ry.loads = rx.loads ∧ ry.iterations = rx.iterations :=
  ⟨_, _, Lecture4.check_password_run x hx, Lecture4.check_password_run y hy,
    rfl, rfl, rfl, rfl, rfl⟩

/-- Instance of `check_password_uniform_accesses`: the attempts "xnfineon" and "infinexn",
each padded to ten bytes, both cause eight loads. -/
theorem check_password_uniform_accesses_witness :
    (8 ≤ (ascii "xnfineon" ++ [0, 0]).length ∧ 8 ≤ (ascii "infinexn" ++ [0, 0]).length) ∧
      ∃ rx ry, Lecture4.check_password (ascii "xnfineon" ++ [0, 0]) = .ok rx ∧
        Lecture4.check_password (ascii "infinexn" ++ [0, 0]) = .ok ry ∧
        rx.loads = [0, 1, 2, 3, 4, 5, 6, 7] ∧ rx.loads.length = 8 ∧ rx.iterations = 8 ∧
        ry.loads = rx.loads ∧ ry.iterations = rx.iterations :=
  ⟨by decide, check_password_uniform_accesses (ascii "xnfineon" ++ [0, 0])
    (ascii "infinexn" ++ [0, 0]) (by decide) (by decide)⟩

/-- C8: for every input buffer of at least eight bytes the early-exit `check_password`
completes; when k is the smallest index in 0..7 with `input[k]` different from the k-th
byte of "infineon" it loads exactly the attempt indices 0, .., k (that is 1 + k bytes,
none after the first mismatch), and when there is no such index it loads the indices
0, .., 7 (8 bytes); "xnfineon" gives 1 load and "infinexn" gives 7 loads. -/
theorem check_password_early_accesses (input : List Nat) (hlen : 8 ≤ input.length) :
    (∃ r, Lecture2.check_password input = .ok r ∧
      (∀ k, k < 8 → input[k]? ≠ (ascii "infineon")[k]? →
        (∀ j, j < k → input[j]? = (ascii "infineon")[j]?) →
        r.loads = List.range (k + 1) ∧ r.loads.length = 1 + k ∧ r.iterations = 1 + k) ∧
      ((∀ i, i < 8 → input[i]? = (ascii "infineon")[i]?) →
        r.loads = List.range 8 ∧ r.loads.length = 8 ∧ r.iterations = 8)) ∧
    (∃ r, Lecture2.check_password (ascii "xnfineon" ++ [0, 0]) = .ok r ∧
      r.loads = [0] ∧ r.loads.length = 1) ∧
    (∃ r, Lecture2.check_password (ascii "infinexn" ++ [0, 0]) = .ok r ∧
      r.loads = [0, 1, 2, 3, 4, 5, 6] ∧ r.loads.length = 7) := by
  refine ⟨?_, ⟨_, rfl, rfl, rfl⟩, ⟨_, rfl, rfl, rfl⟩⟩
  by_cases hall : ∀ i, i < 8 → input[i]? = Lecture2.stored_password[i]?
  · refine ⟨_, Lecture2.check_password_match input hlen hall, fun k hk hne _ => ?_,
      fun _ => ⟨rfl, by simp, rfl⟩⟩
    exact absurd ((hall k hk).trans (stored_password_ascii k hk)) hne
  · obtain ⟨m, hm, hne, hbefore⟩ := Lecture2.first_mismatch input hall
    refine ⟨_, Lecture2.check_password_mismatch input m hm (by omega) hbefore hne,
      fun k hk hkne hkall => ?_, fun h => ?_⟩
    · have hkm : k = m := by
        rcases Nat.lt_trichotomy k m with h | h | h
        · exact absurd ((hbefore k h).trans (stored_password_ascii k hk)) hkne
        · exact h
        · exact absurd ((hkall m h).trans (stored_password_ascii m hm).symm) hne
      subst hkm
      exact ⟨rfl, by simp [Nat.add_comm], Nat.add_comm _ _⟩
    · exact absurd (fun i hi => (h i hi).trans (stored_password_ascii i hi).symm) hall

/-- Instance of `check_password_early_accesses`: in "infinexn" padded to ten bytes the
first mismatch is at index 6, so seven bytes are loaded. -/
theorem check_password_early_accesses_witness :
    8 ≤ (ascii "infinexn" ++ [0, 0]).length ∧
      ∃ r, Lecture2.check_password (ascii "infinexn" ++ [0, 0]) = .ok r ∧
        r.loads = List.range 7 ∧ r.loads.length = 7 ∧ r.iterations = 7 := by
  refine ⟨by decide, ?_⟩
  obtain ⟨r, hr, h1, _⟩ :=
    (check_password_early_accesses (ascii "infinexn" ++ [0, 0]) (by decide)).1
  exact ⟨r, hr, h1 6 (by decide) (by decide) (by decide)⟩

/-! ## Exponentiation: iterations and the zero modulus -/

/-- C9: for every 8-bit message, exponent and modulus with modulus > 0 and every budget
that covers the exponent (`exponent < 2 ^ fuel`, so eight iterations always do), the loop
of `rsa_uint8` completes after exactly bit-length(exponent) bodies: the count is
`Nat.size exponent`, the ceiling of log2 (exponent + 1), the least k with
`exponent < 2 ^ k`; it is 0 when the exponent is 0 and at most 8. -/
theorem rsa_uint8_iterations (fuel message exponent modulus : Nat)
    (hfuel : exponent < 2 ^ fuel) (hm : message < 256) (he : exponent < 256)
    (hn8 : modulus < 256) (hn : 0 < modulus) :
    ∃ r, Lecture1.rsa_uint8 fuel [message, exponent, modulus] = .ok r ∧
      r.iterations = Nat.size exponent ∧
      r.iterations = Nat.clog 2 (exponent + 1) ∧
      exponent < 2 ^ r.iterations ∧ (∀ k, exponent < 2 ^ k → r.iterations ≤ k) ∧
      (exponent = 0 → r.iterations = 0) ∧ r.iterations ≤ 8 ∧
      Lecture1.rsa_uint8 8 [message, exponent, modulus] = .ok r := by
  refine ⟨_, Lecture1.rsa_uint8_run fuel message exponent modulus hn hn8 hm he hfuel, rfl,
    size_eq_clog exponent, Nat.lt_size_self exponent, fun k hk => Nat.size_le.mpr hk,
    fun h => by simp [h], Nat.size_le.mpr he, ?_⟩
  exact Lecture1.rsa_uint8_run 8 message exponent modulus hn hn8 hm he he

/-- Instance of `rsa_uint8_iterations`: exponent 5 on a budget of three iterations. -/
theorem rsa_uint8_iterations_witness :
    (5 < 2 ^ 3 ∧ 3 < 256 ∧ 5 < 256 ∧ 7 < 256 ∧ 0 < 7) ∧
      ∃ r, Lecture1.rsa_uint8 3 [3, 5, 7] = .ok r ∧ r.iterations = 3 := by
  refine ⟨by decide, ?_⟩
  obtain ⟨r, hr, hsz, _⟩ :=
    rsa_uint8_iterations 3 3 5 7 (by decide) (by decide) (by decide) (by decide) (by decide)
  exact ⟨r, hr, hsz.trans size_five⟩

/-- C10 (amended): `rsa_uint8` has no check of the modulus.  On the bytes
[message, exponent, 0] with exponent 0 it never enters the loop, evaluates no remainder
and emits the ordinary result byte 1; with a nonzero exponent the first loop body
evaluates a remainder by zero (the fault `div_by_zero`) and nothing is emitted. -/
theorem rsa_uint8_modulus_zero (fuel message exponent : Nat) (hfuel : 1 ≤ fuel) :
    (exponent = 0 → Lecture1.rsa_uint8 fuel [message, exponent, 0] = .ok
      { events := [.trigger_high, .trigger_low, .simpleserial_put 'r' 1 [1]]
        loads := [0, 1, 2], iterations := 0, ret := 0 }) ∧
    (exponent ≠ 0 → Lecture1.rsa_uint8 fuel [message, exponent, 0] = .error .div_by_zero) := by
  constructor
  · intro h
    simp [Lecture1.rsa_uint8, rsa_finish, rsa_while_zero, h]
  · intro h
    obtain ⟨f, rfl⟩ : ∃ f, fuel = f + 1 := ⟨fuel - 1, by omega⟩
    have hbody : rsa_body 0 { message := message, exponent := exponent, result := 1, tmp := 0 } =
        .error .div_by_zero := by
      rcases Nat.mod_two_eq_zero_or_one exponent with hb | hb <;>
        simp [rsa_body, rsa_multiply, rsa_square, rem, Nat.and_one_is_mod, hb]
    have hloop := rsa_while_succ 0 f { message := message, exponent := exponent, result := 1, tmp := 0 }
      0 h
    rw [hbody] at hloop
    simp [Lecture1.rsa_uint8, rsa_finish, hloop]

/-- Instance of `rsa_uint8_modulus_zero`: the bytes [3, 4, 0] end in a remainder by zero. -/
theorem rsa_uint8_modulus_zero_witness :
    (1 ≤ 8 ∧ 4 ≠ 0) ∧ Lecture1.rsa_uint8 8 [3, 4, 0] = .error .div_by_zero :=
  ⟨by decide, (rsa_uint8_modulus_zero 8 3 4 (by decide)).2 (by decide)⟩

/-- C10 as stated fails: on the bytes [2, 1, 0] the first loop body evaluates a
remainder by zero, and on the bytes [2, 0, 0] the handler emits the ordinary result
byte 1; no input is rejected before computing. -/
theorem rsa_uint8_modulus_zero_counterexample :
    Lecture1.rsa_uint8 8 [2, 1, 0] = .error .div_by_zero ∧
      rsa_multiply 0 { message := 2, exponent := 1, result := 1, tmp := 0 } =
        .error .div_by_zero ∧
      Lecture1.rsa_uint8 8 [2, 0, 0] = .ok
        { events := [.trigger_high, .trigger_low, .simpleserial_put 'r' 1 [1]]
          loads := [0, 1, 2], iterations := 0, ret := 0 } := by
  decide

/-! ## Exponentiation: safety of the arithmetic -/

/-- With a nonzero modulus the loop body always completes. -/
theorem rsa_body_total (modulus : Nat) (hn : 0 < modulus) (v : RsaVars) :
    ∃ v1, rsa_body modulus v = .ok v1 := by
  have hn0 : modulus ≠ 0 := Nat.pos_iff_ne_zero.mp hn
  rcases Nat.mod_two_eq_zero_or_one v.exponent with h | h <;>
    simp [rsa_body, rsa_multiply, rsa_square, rem, Nat.and_one_is_mod, h, hn0]

/-- With a nonzero modulus the loop never ends in a remainder by zero, whatever
the budget and the variables. -/
theorem rsa_while_no_div_by_zero (modulus : Nat) (hn : 0 < modulus) :
    ∀ (fuel : Nat) (v : RsaVars) (n : Nat),
      rsa_while modulus fuel v n ≠ .error .div_by_zero := by
  intro fuel
  induction fuel with
  | zero =>
    intro v n
    by_cases h0 : v.exponent = 0
    · simp [rsa_while_zero, h0]
    · simp [rsa_while, h0]
  | succ fuel ih =>
    intro v n
    by_cases h0 : v.exponent = 0
    · simp [rsa_while_zero, h0]
    · obtain ⟨v1, hv1⟩ := rsa_body_total modulus hn v
      rw [rsa_while_succ _ _ _ _ h0, hv1]
      exact ih v1 (n + 1)

/-- With a nonzero modulus the shared tail of the exponentiation handlers never
ends in a remainder by zero. -/
theorem rsa_finish_no_div_by_zero (fuel modulus message exponent : Nat) (events : List Event)
    (loads : List Nat) (hn : 0 < modulus) :
    rsa_finish fuel modulus message exponent events loads ≠ .error .div_by_zero := by
  have h := rsa_while_no_div_by_zero modulus hn fuel
    { message := message, exponent := exponent, result := 1, tmp := 0 } 0
  unfold rsa_finish
  split
  · simp
  · next f hf =>
    intro hc
    rw [hf] at h
    cases hc
    exact h rfl

/-- C11: for every 8-bit message and exponent and every modulus > 0, every remainder
taken with the modulus as divisor is defined, `rsa_uint8` never ends in the fault
`div_by_zero` whatever the budget, and with a budget covering the exponent it completes;
`rsa_uint8_fixed`, whose modulus is the constant 221, likewise never ends in
`div_by_zero` on any input and completes with a budget of at least three iterations. -/
theorem rsa_uint8_never_divides_by_zero (fuel message exponent modulus : Nat)
    (input : List Nat) (hn : 0 < modulus) :
    (∀ a, rem a modulus = .ok (a % modulus)) ∧
    Lecture1.rsa_uint8 fuel [message, exponent, modulus] ≠ .error .div_by_zero ∧
    (message < 256 → exponent < 256 → modulus < 256 → exponent < 2 ^ fuel →
      ∃ r, Lecture1.rsa_uint8 fuel [message, exponent, modulus] = .ok r) ∧
    (∀ a, rem a Lecture1.modulus = .ok (a % 221)) ∧
    Lecture1.rsa_uint8_fixed fuel input ≠ .error .div_by_zero ∧
    (3 ≤ fuel → ∃ r, Lecture1.rsa_uint8_fixed fuel input = .ok r) := by
  have hn0 : modulus ≠ 0 := Nat.pos_iff_ne_zero.mp hn
  refine ⟨fun a => by simp [rem, hn0], ?_, ?_, fun a => by simp [rem, Lecture1.modulus], ?_, ?_⟩
  · simpa [Lecture1.rsa_uint8] using
      rsa_finish_no_div_by_zero fuel modulus message exponent [.trigger_high] [0, 1, 2] hn
  · intro hm he hn8 hfuel
    exact ⟨_, Lecture1.rsa_uint8_run fuel message exponent modulus hn hn8 hm he hfuel⟩
  · simpa [Lecture1.rsa_uint8_fixed] using
      rsa_finish_no_div_by_zero fuel Lecture1.modulus 0xA0 Lecture1.private_exponent
        [.trigger_high] [] (by decide)
  · intro hfuel
    have hf : 5 < 2 ^ fuel :=
      lt_of_lt_of_le (by decide) (Nat.pow_le_pow_right (Nat.succ_pos 1) hfuel)
    exact ⟨_, by
      simpa [Lecture1.rsa_uint8_fixed, Lecture1.private_exponent, Lecture1.modulus] using
        rsa_finish_run fuel 221 160 5 [.trigger_high] [] (by decide) (by decide) (by decide)
          (by decide) hf⟩

/-- Instance of `rsa_uint8_never_divides_by_zero`: message 3, exponent 4, modulus 5 on a
budget of eight iterations. -/
theorem rsa_uint8_never_divides_by_zero_witness :
    (0 < 5 ∧ 3 < 256 ∧ 4 < 256 ∧ 5 < 256 ∧ 4 < 2 ^ 8 ∧ 3 ≤ 8) ∧
      Lecture1.rsa_uint8 8 [3, 4, 5] ≠ .error .div_by_zero ∧
      (∃ r, Lecture1.rsa_uint8 8 [3, 4, 5] = .ok r) ∧
      (∃ r, Lecture1.rsa_uint8_fixed 8 [] = .ok r) := by
  have h := rsa_uint8_never_divides_by_zero 8 3 4 5 [] (by decide)
  exact ⟨by decide, h.2.1, h.2.2.1 (by decide) (by decide) (by decide) (by decide),
    h.2.2.2.2.2 (by decide)⟩

/-- On byte-sized variables and a nonzero byte-sized modulus the guarded multiplication
stores the exact product and the exact remainder. -/
theorem rsa_multiply_exact (modulus : Nat) (v : RsaVars) (hn : 0 < modulus)
    (hn8 : modulus < 256) (hm : v.message < 256) (hr : v.result < 256) :
    rsa_multiply modulus v = .ok
      (if v.exponent % 2 = 1 then
        { v with tmp := v.result * v.message, result := v.result * v.message % modulus }
      else v) := by
  have hn0 : modulus ≠ 0 := Nat.pos_iff_ne_zero.mp hn
  have hrm := byte_mul_lt _ _ hr hm
  have h2 : v.result * v.message % modulus < 256 := lt_trans (Nat.mod_lt _ hn) hn8
  rcases Nat.mod_two_eq_zero_or_one v.exponent with h | h <;>
    simp [rsa_multiply, rem, Nat.and_one_is_mod, h, hn0, Nat.mod_eq_of_lt, hrm, h2]

/-- On byte-sized variables and a nonzero byte-sized modulus the squaring stores the
exact product, the exact remainder and the exact shifted exponent. -/
theorem rsa_square_exact (modulus : Nat) (v : RsaVars) (hn : 0 < modulus)
    (hn8 : modulus < 256) (hm : v.message < 256) (he : v.exponent < 256) :
    rsa_square modulus v = .ok
      { v with tmp := v.message * v.message, message := v.message * v.message % modulus,
               exponent := v.exponent / 2 } := by
  have hn0 : modulus ≠ 0 := Nat.pos_iff_ne_zero.mp hn
  have hmm := byte_mul_lt _ _ hm hm
  have h1 : v.message * v.message % modulus < 256 := lt_trans (Nat.mod_lt _ hn) hn8
  have h3 : v.exponent / 2 < 256 := by omega
  simp [rsa_square, rem, Nat.shiftRight_eq_div_pow, hn0, Nat.mod_eq_of_lt, hmm, h1, h3]

/-- Byte-sized variables stay byte-sized along the loop. -/
theorem rsa_after_bytes (modulus : Nat) (hn : 0 < modulus) (hn8 : modulus < 256) :
    ∀ (k : Nat) (v w : RsaVars), v.message < 256 → v.result < 256 → v.exponent < 256 →
      rsa_after modulus k v = some w →
      w.message < 256 ∧ w.result < 256 ∧ w.exponent < 256 := by
  intro k
  induction k with
  | zero =>
    intro v w hm hr he h
    simp only [rsa_after, Option.some.injEq] at h
    subst h
    exact ⟨hm, hr, he⟩
  | succ k ih =>
    intro v w hm hr he h
    by_cases h0 : v.exponent = 0
    · simp [rsa_after, h0] at h
    · rw [rsa_after, if_neg h0, rsa_body_ok modulus v hn hn8 hm hr he] at h
      refine ih _ w (lt_trans (Nat.mod_lt _ hn) hn8) ?_ ?_ h
      · simp only
        split
        · exact lt_trans (Nat.mod_lt _ hn) hn8
        · exact hr
      · simp only
        omega

/-- A state that `rsa_after` reaches in `k` passes is the state the loop itself is in
after `k` passes: running the loop from the start with `k` more units of budget is
running it from that state. -/
theorem rsa_after_while (modulus : Nat) :
    ∀ (k : Nat) (v w : RsaVars) (fuel n : Nat), rsa_after modulus k v = some w →
      rsa_while modulus (fuel + k) v n = rsa_while modulus fuel w (n + k) := by
  intro k
  induction k with
  | zero =>
    intro v w fuel n h
    simp only [rsa_after, Option.some.injEq] at h
    subst h
    rfl
  | succ k ih =>
    intro v w fuel n h
    by_cases h0 : v.exponent = 0
    · simp [rsa_after, h0] at h
    · rw [rsa_after, if_neg h0] at h
      cases hb : rsa_body modulus v with
      | error f => rw [hb] at h; simp at h
      | ok v1 =>
        rw [hb] at h
        have hstep := rsa_while_succ modulus (fuel + k) v n h0
        rw [hb] at hstep
        simp only at h hstep
        rw [← Nat.add_assoc, hstep, ih v1 w fuel (n + 1) h]
        congr 1
        omega

/-- C12: for every 8-bit message, exponent and modulus > 0, let `v` be the variables at
the head of the `rsa_uint8` loop after any number `k` of passes.  Then the products
`result * message` and `message * message` are at most 65535, so the 16-bit `tmp`
receives the exact product, `tmp % modulus` is at most 255, so the 8-bit `result` and
`message` receive the exact remainder, and the pass through the body started at `v`
computes exactly that. -/
theorem rsa_uint8_stores_exact (message exponent modulus k : Nat) (v : RsaVars)
    (hm : message < 256) (he : exponent < 256) (hn8 : modulus < 256) (hn : 0 < modulus)
    (hreach : rsa_after modulus k
      { message := message, exponent := exponent, result := 1, tmp := 0 } = some v) :
    (∀ fuel, rsa_while modulus (fuel + k)
        { message := message, exponent := exponent, result := 1, tmp := 0 } 0 =
      rsa_while modulus fuel v k) ∧
    v.result * v.message ≤ 65535 ∧ v.message * v.message ≤ 65535 ∧
    v.result * v.message % 65536 = v.result * v.message ∧
    v.message * v.message % 65536 = v.message * v.message ∧
    v.result * v.message % modulus ≤ 255 ∧ v.message * v.message % modulus ≤ 255 ∧
    v.result * v.message % modulus % 256 = v.result * v.message % modulus ∧
    v.message * v.message % modulus % 256 = v.message * v.message % modulus ∧
    rsa_multiply modulus v = .ok
      (if v.exponent % 2 = 1 then
        { v with tmp := v.result * v.message, result := v.result * v.message % modulus }
      else v) ∧
    (∀ v1, rsa_multiply modulus v = .ok v1 → rsa_square modulus v1 = .ok
      { v1 with tmp := v.message * v.message, message := v.message * v.message % modulus,
                exponent := v.exponent / 2 }) := by
  obtain ⟨hvm, hvr, hve⟩ := rsa_after_bytes modulus hn hn8 k _ v hm (by show 1 < 256; decide) he hreach
  have hrm := byte_mul_lt _ _ hvr hvm
  have hmm := byte_mul_lt _ _ hvm hvm
  have h1 : v.result * v.message % modulus < 256 := lt_trans (Nat.mod_lt _ hn) hn8
  have h2 : v.message * v.message % modulus < 256 := lt_trans (Nat.mod_lt _ hn) hn8
  have hmul := rsa_multiply_exact modulus v hn hn8 hvm hvr
  refine ⟨fun fuel => ?_, by omega, by omega, Nat.mod_eq_of_lt hrm, Nat.mod_eq_of_lt hmm,
    by omega, by omega, Nat.mod_eq_of_lt h1, Nat.mod_eq_of_lt h2, hmul, fun v1 hv1 => ?_⟩
  · simpa using rsa_after_while modulus k _ v fuel 0 hreach
  · rw [hmul] at hv1
    have hv1m : v1.message = v.message := by
      cases hv1; split <;> rfl
    have hv1e : v1.exponent = v.exponent := by
      cases hv1; split <;> rfl
    have := rsa_square_exact modulus v1 hn hn8 (by rw [hv1m]; exact hvm) (by rw [hv1e]; exact hve)
    rw [hv1m, hv1e] at this
    exact this

/-- Instance of `rsa_uint8_stores_exact`: message 200, exponent 5, modulus 221 after one
pass through the body, where `result` is 200 and `message` is 200 * 200 % 221 = 220. -/
theorem rsa_uint8_stores_exact_witness :
    (200 < 256 ∧ 5 < 256 ∧ 221 < 256 ∧ 0 < 221 ∧
      rsa_after 221 1 { message := 200, exponent := 5, result := 1, tmp := 0 } =
        some { message := 220, exponent := 2, result := 200, tmp := 40000 }) ∧
      200 * 220 ≤ 65535 ∧ 220 * 220 ≤ 65535 ∧
      rsa_multiply 221 { message := 220, exponent := 2, result := 200, tmp := 40000 } =
        .ok { message := 220, exponent := 2, result := 200, tmp := 40000 } := by
  have h := rsa_uint8_stores_exact 200 5 221 1
    { message := 220, exponent := 2, result := 200, tmp := 40000 }
    (by decide) (by decide) (by decide) (by decide) (by decide)
  exact ⟨by decide, h.2.1, h.2.2.1, h.2.2.2.2.2.2.2.2.2.1⟩

/-! ## Exponentiation: congruence, exact value and the fixed variant -/

/-- C13: for every 8-bit message, exponent and modulus > 0 and every budget of at least
eight iterations, `rsa_uint8` completes and emits one byte `out` under tag 'r' with
`out % modulus = message ^ exponent % modulus` and `out < 256`. -/
theorem rsa_uint8_congruent (fuel message exponent modulus : Nat) (hfuel : 8 ≤ fuel)
    (hm : message < 256) (he : exponent < 256) (hn8 : modulus < 256) (hn : 0 < modulus) :
    ∃ r out, Lecture1.rsa_uint8 fuel [message, exponent, modulus] = .ok r ∧
      r.events = [.trigger_high, .trigger_low, .simpleserial_put 'r' 1 [out]] ∧
      out % modulus = message ^ exponent % modulus ∧ out < 256 := by
  refine ⟨_, _, Lecture1.rsa_uint8_run fuel message exponent modulus hn hn8 hm he
    (byte_lt_two_pow fuel exponent hfuel he), rfl, ?_, ?_⟩
  · by_cases h0 : exponent = 0
    · simp [h0]
    · simp [h0]
  · by_cases h0 : exponent = 0
    · simp [h0]
    · simp only [h0, if_false]
      exact lt_trans (Nat.mod_lt _ hn) hn8

/-- Instance of `rsa_uint8_congruent`: message 7, exponent 0, modulus 1, where the
emitted byte 1 is congruent to 7 ^ 0 modulo 1 without being equal to 7 ^ 0 % 1. -/
theorem rsa_uint8_congruent_witness :
    (8 ≤ 8 ∧ 7 < 256 ∧ 0 < 256 ∧ 1 < 256 ∧ 0 < 1) ∧
      ∃ r out, Lecture1.rsa_uint8 8 [7, 0, 1] = .ok r ∧
        r.events = [.trigger_high, .trigger_low, .simpleserial_put 'r' 1 [out]] ∧
        out % 1 = 7 ^ 0 % 1 ∧ out < 256 :=
  ⟨by decide, rsa_uint8_congruent 8 7 0 1 (by decide) (by decide) (by decide) (by decide)
    (by decide)⟩

/-- C17: for every 8-bit message, exponent and modulus > 0 and every budget of at least
eight iterations, `rsa_uint8` completes and emits one byte `out`: if modulus >= 2 then
`out = message ^ exponent % modulus` and `out < modulus`; if modulus = 1 and
exponent >= 1 then `out = 0`; if modulus = 1 and exponent = 0 then `out = 1`; and `out`
fails to be below the modulus exactly when modulus = 1 and exponent = 0. -/
theorem rsa_uint8_exact_value (fuel message exponent modulus : Nat) (hfuel : 8 ≤ fuel)
    (hm : message < 256) (he : exponent < 256) (hn8 : modulus < 256) (hn : 0 < modulus) :
    ∃ r out, Lecture1.rsa_uint8 fuel [message, exponent, modulus] = .ok r ∧
      r.events = [.trigger_high, .trigger_low, .simpleserial_put 'r' 1 [out]] ∧
      (2 ≤ modulus → out = message ^ exponent % modulus ∧ out < modulus) ∧
      (modulus = 1 → 1 ≤ exponent → out = 0) ∧
      (modulus = 1 → exponent = 0 → out = 1) ∧
      (¬ out < modulus ↔ modulus = 1 ∧ exponent = 0) := by
  refine ⟨_, _, Lecture1.rsa_uint8_run fuel message exponent modulus hn hn8 hm he
    (byte_lt_two_pow fuel exponent hfuel he), rfl, ?_, ?_, ?_, ?_⟩
  · intro h2
    by_cases h0 : exponent = 0
    · have h1 : 1 % modulus = 1 := Nat.mod_eq_of_lt (by omega)
      simp only [h0, if_true, pow_zero, h1, true_and]
      omega
    · simp only [h0, if_false, true_and]
      exact Nat.mod_lt _ hn
  · intro h1 h2
    have h0 : exponent ≠ 0 := by omega
    simp [h0, h1, Nat.mod_one]
  · intro _ h0
    simp [h0]
  · by_cases h0 : exponent = 0
    · simp only [h0, if_true, and_true]
      omega
    · have hlt : message ^ exponent % modulus < modulus := Nat.mod_lt _ hn
      simp only [h0, if_false, and_false, iff_false, not_not]
      exact hlt

/-- Instance of `rsa_uint8_exact_value`: message 3, exponent 4, modulus 5. -/
theorem rsa_uint8_exact_value_witness :
    (8 ≤ 8 ∧ 3 < 256 ∧ 4 < 256 ∧ 5 < 256 ∧ 0 < 5 ∧ 2 ≤ 5) ∧
      ∃ r out, Lecture1.rsa_uint8 8 [3, 4, 5] = .ok r ∧
        r.events = [.trigger_high, .trigger_low, .simpleserial_put 'r' 1 [out]] ∧
        out = 1 ∧ out < 5 := by
  refine ⟨by decide, ?_⟩
  obtain ⟨r, out, hr, hev, h2, _⟩ :=
    rsa_uint8_exact_value 8 3 4 5 (by decide) (by decide) (by decide) (by decide) (by decide)
  exact ⟨r, out, hr, hev, (h2 (by decide)).1.trans (by decide), (h2 (by decide)).2⟩

/-- C15: for every input buffer and every budget, `rsa_uint8_fixed` behaves as
`rsa_uint8` on the bytes [0xA0, 5, 221] except that it loads nothing: same trace, same
number of iterations, same return value, or the same fault; with a budget of at least
three iterations both complete and emit the same result byte, 62. -/
theorem rsa_uint8_fixed_specialises (fuel : Nat) (input : List Nat) :
    Lecture1.rsa_uint8_fixed fuel input =
        (Lecture1.rsa_uint8 fuel [0xA0, 5, 221]).map (fun r => { r with loads := [] }) ∧
    (3 ≤ fuel → ∃ rf rv, Lecture1.rsa_uint8_fixed fuel input = .ok rf ∧
      Lecture1.rsa_uint8 fuel [0xA0, 5, 221] = .ok rv ∧
      rf.events = rv.events ∧ rf.iterations = rv.iterations ∧ rf.ret = rv.ret ∧
      rv.events = [.trigger_high, .trigger_low, .simpleserial_put 'r' 1 [62]]) := by
  have hshape : Lecture1.rsa_uint8_fixed fuel input =
      (Lecture1.rsa_uint8 fuel [0xA0, 5, 221]).map (fun r => { r with loads := [] }) := by
    simp only [Lecture1.rsa_uint8_fixed, Lecture1.rsa_uint8, Lecture1.private_exponent,
      Lecture1.modulus, rsa_finish, List.getElem?_cons_zero, List.getElem?_cons_succ]
    cases rsa_while 221 fuel { message := 160, exponent := 5, result := 1, tmp := 0 } 0 with
    | error f => rfl
    | ok p => rfl
  refine ⟨hshape, fun hfuel => ?_⟩
  have hf : 5 < 2 ^ fuel :=
    lt_of_lt_of_le (by decide) (Nat.pow_le_pow_right (Nat.succ_pos 1) hfuel)
  have hv := Lecture1.rsa_uint8_run fuel 160 5 221 (by decide) (by decide) (by decide)
    (by decide) hf
  have hv2 : Lecture1.rsa_uint8 fuel [0xA0, 5, 221] = .ok
      { events := [.trigger_high, .trigger_low, .simpleserial_put 'r' 1 [62]]
        loads := [0, 1, 2], iterations := Nat.size 5, ret := 0 } := by
    rw [hv]; rfl
  rw [hshape, hv2]
  exact ⟨_, _, rfl, rfl, rfl, rfl, rfl, rfl⟩

/-- Instance of `rsa_uint8_fixed_specialises` on an empty command buffer and a budget of
eight iterations. -/
theorem rsa_uint8_fixed_specialises_witness :
    3 ≤ 8 ∧ ∃ rf rv, Lecture1.rsa_uint8_fixed 8 [] = .ok rf ∧
      Lecture1.rsa_uint8 8 [0xA0, 5, 221] = .ok rv ∧
      rf.events = rv.events ∧ rf.iterations = rv.iterations ∧ rf.ret = rv.ret ∧
      rv.events = [.trigger_high, .trigger_low, .simpleserial_put 'r' 1 [62]] :=
  ⟨by decide, (rsa_uint8_fixed_specialises 8 []).2 (by decide)⟩

/-! ## The demo key pair -/

set_option maxRecDepth 100000 in
/-- Raising to the 5th and then to the 77th power modulo 221, in either order, is the
identity on the residues below 221. -/
theorem demo_exponents_inverse :
    ∀ m, m < 221 → (m ^ 5 % 221) ^ 77 % 221 = m ∧ (m ^ 77 % 221) ^ 5 % 221 = m := by
  decide

/-- Two chained runs of `rsa_uint8` with modulus 221: the byte emitted for exponent `d`
is fed back as the message for exponent `e`. -/
theorem Lecture1.rsa_uint8_chain (fuel m d e : Nat) (hfuel : 8 ≤ fuel) (hm : m < 256)
    (hd : d < 256) (he : e < 256) (hd0 : d ≠ 0) (he0 : e ≠ 0) :
    ∃ r1 r2, Lecture1.rsa_uint8 fuel [m, d, 221] = .ok r1 ∧
      r1.events = [.trigger_high, .trigger_low, .simpleserial_put 'r' 1 [m ^ d % 221]] ∧
      Lecture1.rsa_uint8 fuel [m ^ d % 221, e, 221] = .ok r2 ∧
      r2.events = [.trigger_high, .trigger_low,
        .simpleserial_put 'r' 1 [(m ^ d % 221) ^ e % 221]] := by
  have hc : m ^ d % 221 < 256 := lt_trans (Nat.mod_lt _ (by decide)) (by decide)
  refine ⟨_, _, Lecture1.rsa_uint8_run fuel m d 221 (by decide) (by decide) hm hd
      (byte_lt_two_pow fuel d hfuel hd), by simp [hd0],
    Lecture1.rsa_uint8_run fuel (m ^ d % 221) e 221 (by decide) (by decide) hc he
      (byte_lt_two_pow fuel e hfuel he), by simp [he0]⟩

/-- C18: the documented demo parameters form a working key pair for the handler:
221 = 13 * 17, 5 * 77 % 192 = 1 with 192 = 12 * 16, and for every message m below 221 and
every budget of at least eight iterations, the byte `rsa_uint8` emits on [m, 5, 221],
fed back as the message with exponent 77 and modulus 221, makes it emit m, and likewise
with the exponents 77 and then 5; the byte 62 emitted by `rsa_uint8_fixed`, raised to the
77th power modulo 221, gives back 0xA0. -/
theorem demo_key_pair_round_trip (fuel m : Nat) (hfuel : 8 ≤ fuel) (hm : m < 221) :
    (221 = 13 * 17 ∧ 5 * 77 % 192 = 1 ∧ 192 = (13 - 1) * (17 - 1) ∧
      Lecture1.modulus = 221 ∧ Lecture1.private_exponent = 5) ∧
    (∃ r1 c r2, Lecture1.rsa_uint8 fuel [m, 5, 221] = .ok r1 ∧
      r1.events = [.trigger_high, .trigger_low, .simpleserial_put 'r' 1 [c]] ∧
      Lecture1.rsa_uint8 fuel [c, 77, 221] = .ok r2 ∧
      r2.events = [.trigger_high, .trigger_low, .simpleserial_put 'r' 1 [m]]) ∧
    (∃ r1 c r2, Lecture1.rsa_uint8 fuel [m, 77, 221] = .ok r1 ∧
      r1.events = [.trigger_high, .trigger_low, .simpleserial_put 'r' 1 [c]] ∧
      Lecture1.rsa_uint8 fuel [c, 5, 221] = .ok r2 ∧
      r2.events = [.trigger_high, .trigger_low, .simpleserial_put 'r' 1 [m]]) ∧
    (∃ rf r, Lecture1.rsa_uint8_fixed fuel [] = .ok rf ∧
      rf.events = [.trigger_high, .trigger_low, .simpleserial_put 'r' 1 [62]] ∧
      Lecture1.rsa_uint8 fuel [62, 77, 221] = .ok r ∧
      r.events = [.trigger_high, .trigger_low, .simpleserial_put 'r' 1 [0xA0]]) ∧
    62 ^ 77 % 221 = 0xA0 := by
  have hm8 : m < 256 := by omega
  have hinv := demo_exponents_inverse m hm
  refine ⟨⟨by decide, by decide, by decide, rfl, rfl⟩, ?_, ?_, ?_, by decide⟩
  · obtain ⟨r1, r2, h1, e1, h2, e2⟩ :=
      Lecture1.rsa_uint8_chain fuel m 5 77 hfuel hm8 (by decide) (by decide) (by decide)
        (by decide)
    rw [hinv.1] at e2
    exact ⟨r1, _, r2, h1, e1, h2, e2⟩
  · obtain ⟨r1, r2, h1, e1, h2, e2⟩ :=
      Lecture1.rsa_uint8_chain fuel m 77 5 hfuel hm8 (by decide) (by decide) (by decide)
        (by decide)
    rw [hinv.2] at e2
    exact ⟨r1, _, r2, h1, e1, h2, e2⟩
  · have hf : 5 < 2 ^ fuel := byte_lt_two_pow fuel 5 hfuel (by decide)
    have hfix : Lecture1.rsa_uint8_fixed fuel [] = .ok
        { events := [.trigger_high, .trigger_low, .simpleserial_put 'r' 1 [62]]
          loads := [], iterations := Nat.size 5, ret := 0 } := by
      simpa [Lecture1.rsa_uint8_fixed, Lecture1.private_exponent, Lecture1.modulus] using
        rsa_finish_run fuel 221 160 5 [.trigger_high] [] (by decide) (by decide) (by decide)
          (by decide) hf
    have hback := Lecture1.rsa_uint8_run fuel 62 77 221 (by decide) (by decide) (by decide)
      (by decide) (byte_lt_two_pow fuel 77 hfuel (by decide))
    exact ⟨_, _, hfix, rfl, hback, by decide⟩

/-- Instance of `demo_key_pair_round_trip`: the message 0xA0 of the fixed demo is sent
to 62 by the exponent 5 and 62 is sent back to 0xA0 by the exponent 77. -/
theorem demo_key_pair_round_trip_witness :
    (8 ≤ 8 ∧ 160 < 221) ∧
      ∃ r1 c r2, Lecture1.rsa_uint8 8 [160, 5, 221] = .ok r1 ∧
        r1.events = [.trigger_high, .trigger_low, .simpleserial_put 'r' 1 [c]] ∧
        Lecture1.rsa_uint8 8 [c, 77, 221] = .ok r2 ∧
        r2.events = [.trigger_high, .trigger_low, .simpleserial_put 'r' 1 [160]] :=
  ⟨by decide, (demo_key_pair_round_trip 8 160 (by decide) (by decide)).2.1⟩

/-! ## Comparators: the bytes beyond the password -/

/-- C14: any two input buffers of at least eight bytes that agree on the indices 0..7
make the early-exit `check_password` complete with the same run, and the uniform-time
`check_password` complete with the same run: same emitted byte, same loads, same number
of iterations, whatever the buffers hold from index 8 on. -/
theorem comparators_ignore_padding (a b : List Nat) (ha : 8 ≤ a.length) (hb : 8 ≤ b.length)
    (hagree : ∀ i, i < 8 → a[i]? = b[i]?) :
    ∃ r2 r4 out2 out4, Lecture2.check_password a = .ok r2 ∧ Lecture2.check_password b = .ok r2 ∧
      Lecture4.check_password a = .ok r4 ∧ Lecture4.check_password b = .ok r4 ∧
      r2.events = [.trigger_high, .trigger_low, .simpleserial_put 'p' 1 [out2]] ∧
      r4.events = [.trigger_high, .trigger_low, .simpleserial_put 'p' 1 [out4]] := by
  have h4 : Lecture4.check_password b = Lecture4.check_password a := by
    rw [Lecture4.check_password_run a ha, Lecture4.check_password_run b hb]
    have hfold : (List.range 8).foldl (fun acc j =>
          (acc ||| ((Lecture4.stored_password[j]?).getD 0 ^^^ (b[j]?).getD 0)) % 256) 0 =
        (List.range 8).foldl (fun acc j =>
          (acc ||| ((Lecture4.stored_password[j]?).getD 0 ^^^ (a[j]?).getD 0)) % 256) 0 := by
      apply List.foldl_ext
      intro acc j hj
      rw [hagree j (List.mem_range.mp hj)]
    rw [hfold]
  by_cases hall : ∀ i, i < 8 → a[i]? = Lecture2.stored_password[i]?
  · have hallb : ∀ i, i < 8 → b[i]? = Lecture2.stored_password[i]? :=
      fun i hi => (hagree i hi).symm.trans (hall i hi)
    exact ⟨_, _, _, _, Lecture2.check_password_match a ha hall,
      Lecture2.check_password_match b hb hallb, Lecture4.check_password_run a ha,
      h4.trans (Lecture4.check_password_run a ha), rfl, rfl⟩
  · obtain ⟨m, hm, hne, hbefore⟩ := Lecture2.first_mismatch a hall
    have hneb : b[m]? ≠ Lecture2.stored_password[m]? := by
      rw [← hagree m hm]; exact hne
    have hbeforeb : ∀ j, j < m → b[j]? = Lecture2.stored_password[j]? :=
      fun j hj => (hagree j (by omega)).symm.trans (hbefore j hj)
    exact ⟨_, _, _, _, Lecture2.check_password_mismatch a m hm (by omega) hbefore hne,
      Lecture2.check_password_mismatch b m hm (by omega) hbeforeb hneb,
      Lecture4.check_password_run a ha, h4.trans (Lecture4.check_password_run a ha), rfl, rfl⟩

/-- Instance of `comparators_ignore_padding`: the attempt "infinexn" in two 10-byte
buffers that differ in bytes 8 and 9. -/
theorem comparators_ignore_padding_witness :
    (8 ≤ (ascii "infinexn" ++ [0, 0]).length ∧ 8 ≤ (ascii "infinexn" ++ [255, 17]).length ∧
      ∀ i, i < 8 → (ascii "infinexn" ++ [0, 0])[i]? = (ascii "infinexn" ++ [255, 17])[i]?) ∧
      ∃ r2 r4 out2 out4, Lecture2.check_password (ascii "infinexn" ++ [0, 0]) = .ok r2 ∧
        Lecture2.check_password (ascii "infinexn" ++ [255, 17]) = .ok r2 ∧
        Lecture4.check_password (ascii "infinexn" ++ [0, 0]) = .ok r4 ∧
        Lecture4.check_password (ascii "infinexn" ++ [255, 17]) = .ok r4 ∧
        r2.events = [.trigger_high, .trigger_low, .simpleserial_put 'p' 1 [out2]] ∧
        r4.events = [.trigger_high, .trigger_low, .simpleserial_put 'p' 1 [out4]] :=
  ⟨by decide, comparators_ignore_padding (ascii "infinexn" ++ [0, 0])
    (ascii "infinexn" ++ [255, 17]) (by decide) (by decide) (by decide)⟩

/-! ## The timeline of a completed call -/

/-- The timeline loop does nothing when entered with a zero exponent. -/
theorem rsa_while_timeline_zero (modulus fuel : Nat) (v : RsaVars) (t : List Action)
    (he : v.exponent = 0) : rsa_while_timeline modulus fuel v t = .ok (v, t) := by
  cases fuel <;> simp [rsa_while_timeline, he]

/-- Unfolding of the timeline loop at a nonzero exponent with budget left. -/
theorem rsa_while_timeline_succ (modulus fuel : Nat) (v : RsaVars) (t : List Action)
    (he : v.exponent ≠ 0) :
    rsa_while_timeline modulus (fuel + 1) v t =
      match rsa_body modulus v with
      | .ok v1 => rsa_while_timeline modulus fuel v1 (t ++ [.pass v1.result])
      | .error f => .error f := by
  rw [rsa_while_timeline]
  simp [he]

/-- The timeline loop never runs on an empty budget with a nonzero exponent. -/
theorem rsa_while_timeline_out (modulus : Nat) (v : RsaVars) (t : List Action)
    (he : v.exponent ≠ 0) : rsa_while_timeline modulus 0 v t = .error .out_of_fuel := by
  simp [rsa_while_timeline, he]

/-- What a completed exponentiation loop appends to the timeline: passes only, the last
of which carries the final `result`. -/
theorem rsa_while_timeline_shape (modulus : Nat) :
    ∀ (fuel : Nat) (v : RsaVars) (t : List Action) (w : RsaVars) (t1 : List Action),
      rsa_while_timeline modulus fuel v t = .ok (w, t1) →
      ∃ body, t1 = t ++ body ∧ (∀ x ∈ body, ∃ y, x = .pass y) ∧
        ((body = [] ∧ w.result = v.result) ∨ ∃ m1, body = m1 ++ [.pass w.result]) := by
  intro fuel
  induction fuel with
  | zero =>
    intro v t w t1 h
    by_cases h0 : v.exponent = 0
    · rw [rsa_while_timeline_zero _ _ _ _ h0] at h
      cases h
      exact ⟨[], by simp, by simp, Or.inl ⟨rfl, rfl⟩⟩
    · rw [rsa_while_timeline_out _ _ _ h0] at h
      cases h
  | succ fuel ih =>
    intro v t w t1 h
    by_cases h0 : v.exponent = 0
    · rw [rsa_while_timeline_zero _ _ _ _ h0] at h
      cases h
      exact ⟨[], by simp, by simp, Or.inl ⟨rfl, rfl⟩⟩
    · rw [rsa_while_timeline_succ _ _ _ _ h0] at h
      cases hb : rsa_body modulus v with
      | error f => rw [hb] at h; cases h
      | ok v1 =>
        rw [hb] at h
        obtain ⟨body1, ht1, hall, hlast⟩ := ih v1 _ w t1 h
        refine ⟨.pass v1.result :: body1, by simp [ht1], ?_, Or.inr ?_⟩
        · intro x hx
          rcases List.mem_cons.mp hx with hx | hx
          · exact ⟨_, hx⟩
          · exact hall x hx
        · rcases hlast with ⟨hnil, hres⟩ | ⟨m1, hm1⟩
          · exact ⟨[], by simp [hnil, hres]⟩
          · exact ⟨.pass v1.result :: m1, by simp [hm1]⟩

/-- The timeline loop and the loop of the run agree: same final variables or same
fault, and the timeline gains one pass per body entered and nothing else. -/
theorem rsa_while_timeline_refines (modulus : Nat) :
    ∀ (fuel : Nat) (v : RsaVars) (t : List Action),
      (rsa_while_timeline modulus fuel v t).map
          (fun p => (p.1, passes p.2, calls p.2, loads_of p.2)) =
        (rsa_while modulus fuel v (passes t)).map
          (fun p => (p.1, p.2, calls t, loads_of t)) := by
  intro fuel
  induction fuel with
  | zero =>
    intro v t
    by_cases h0 : v.exponent = 0
    · rw [rsa_while_timeline_zero _ _ _ _ h0, rsa_while_zero _ _ _ _ h0]; rfl
    · rw [rsa_while_timeline_out _ _ _ h0]
      simp [rsa_while, h0, Except.map]
  | succ fuel ih =>
    intro v t
    by_cases h0 : v.exponent = 0
    · rw [rsa_while_timeline_zero _ _ _ _ h0, rsa_while_zero _ _ _ _ h0]; rfl
    · rw [rsa_while_timeline_succ _ _ _ _ h0, rsa_while_succ _ _ _ _ h0]
      cases hb : rsa_body modulus v with
      | error f => rfl
      | ok v1 =>
        simp only
        have h := ih v1 (t ++ [.pass v1.result])
        have hp : passes (t ++ [.pass v1.result]) = passes t + 1 := by simp [passes]
        have hc : calls (t ++ [.pass v1.result]) = calls t := by simp [calls]
        have hl : loads_of (t ++ [.pass v1.result]) = loads_of t := by simp [loads_of]
        rw [hp, hc, hl] at h
        exact h

/-- What a completed early-exit loop appends to the timeline: loads and passes only,
the last of which is a pass carrying the final `password_correct`. -/
theorem Lecture2.check_loop_timeline_shape (input : List Nat) :
    ∀ (k i flag : Nat) (t : List Action) (out : Nat) (t1 : List Action),
      Lecture2.check_loop_timeline input k i flag t = .ok (out, t1) →
      ∃ body, t1 = t ++ body ∧ (∀ x ∈ body, (∃ j, x = .load j) ∨ ∃ y, x = .pass y) ∧
        ((body = [] ∧ out = flag) ∨ ∃ m1, body = m1 ++ [.pass out]) := by
  intro k
  induction k with
  | zero =>
    intro i flag t out t1 h
    simp only [Lecture2.check_loop_timeline, Except.ok.injEq, Prod.mk.injEq] at h
    obtain ⟨h1, h2⟩ := h
    subst h1 h2
    exact ⟨[], by simp, by simp, Or.inl ⟨rfl, rfl⟩⟩
  | succ k ih =>
    intro i flag t out t1 h
    rw [Lecture2.check_loop_timeline] at h
    split at h
    · next stored attempt _ _ =>
      split at h
      · simp only [Except.ok.injEq, Prod.mk.injEq] at h
        obtain ⟨h1, h2⟩ := h
        subst h1 h2
        exact ⟨[.load i, .pass 0], by simp, by simp, Or.inr ⟨[.load i], by simp⟩⟩
      · obtain ⟨body1, ht1, hall, hlast⟩ := ih _ _ _ out t1 h
        refine ⟨.load i :: .pass flag :: body1, by simp [ht1], ?_, Or.inr ?_⟩
        · intro x hx
          simp only [List.mem_cons] at hx
          rcases hx with hx | hx | hx
          · exact Or.inl ⟨_, hx⟩
          · exact Or.inr ⟨_, hx⟩
          · exact hall x hx
        · rcases hlast with ⟨hnil, hres⟩ | ⟨m1, hm1⟩
          · exact ⟨[.load i], by simp [hnil, hres]⟩
          · exact ⟨.load i :: .pass flag :: m1, by simp [hm1]⟩
    · cases h

/-- What a completed uniform-time loop appends to the timeline: loads and passes only,
the last of which is a pass carrying the final `password_wrong`. -/
theorem Lecture4.check_loop_timeline_form (input : List Nat) :
    ∀ (k i flag : Nat) (t : List Action) (out : Nat) (t1 : List Action),
      Lecture4.check_loop_timeline input k i flag t = .ok (out, t1) →
      ∃ body, t1 = t ++ body ∧ (∀ x ∈ body, (∃ j, x = .load j) ∨ ∃ y, x = .pass y) ∧
        ((body = [] ∧ out = flag) ∨ ∃ m1, body = m1 ++ [.pass out]) := by
  intro k
  induction k with
  | zero =>
    intro i flag t out t1 h
    simp only [Lecture4.check_loop_timeline, Except.ok.injEq, Prod.mk.injEq] at h
    obtain ⟨h1, h2⟩ := h
    subst h1 h2
    exact ⟨[], by simp, by simp, Or.inl ⟨rfl, rfl⟩⟩
  | succ k ih =>
    intro i flag t out t1 h
    rw [Lecture4.check_loop_timeline] at h
    split at h
    · next stored attempt _ _ =>
      obtain ⟨body1, ht1, hall, hlast⟩ := ih _ _ _ out t1 h
      refine ⟨.load i :: .pass ((flag ||| (stored ^^^ attempt)) % 256) :: body1,
        by simp [ht1], ?_, Or.inr ?_⟩
      · intro x hx
        simp only [List.mem_cons] at hx
        rcases hx with hx | hx | hx
        · exact Or.inl ⟨_, hx⟩
        · exact Or.inr ⟨_, hx⟩
        · exact hall x hx
      · rcases hlast with ⟨hnil, hres⟩ | ⟨m1, hm1⟩
        · exact ⟨[.load i], by simp [hnil, hres]⟩
        · exact ⟨.load i :: .pass ((flag ||| (stored ^^^ attempt)) % 256) :: m1, by simp [hm1]⟩
    · cases h

/-- The early-exit timeline loop and the loop of the run agree: same flag or same fault,
and the timeline gains one load and one pass per body entered and nothing else. -/
theorem Lecture2.check_loop_timeline_refines (input : List Nat) :
    ∀ (k i flag : Nat) (t : List Action),
      (Lecture2.check_loop_timeline input k i flag t).map
          (fun p => (p.1, loads_of p.2, passes p.2, calls p.2)) =
        (Lecture2.check_loop input k i flag (loads_of t) (passes t)).map
          (fun p => (p.1, p.2.1, p.2.2, calls t)) := by
  intro k
  induction k with
  | zero => intro i flag t; rfl
  | succ k ih =>
    intro i flag t
    rw [Lecture2.check_loop_timeline, Lecture2.check_loop]
    split
    · next stored attempt _ _ =>
      split
      · simp [Except.map, loads_of, passes, calls]
      · have h := ih (i + 1) flag (t ++ [.load i] ++ [.pass flag])
        have hp : passes (t ++ [.load i] ++ [.pass flag]) = passes t + 1 := by simp [passes]
        have hc : calls (t ++ [.load i] ++ [.pass flag]) = calls t := by simp [calls]
        have hl : loads_of (t ++ [.load i] ++ [.pass flag]) = loads_of t ++ [i] := by
          simp [loads_of]
        rw [hp, hc, hl] at h
        exact h
    · rfl

/-- The uniform-time timeline loop and the loop of the run agree: same accumulator or
same fault, and the timeline gains one load and one pass per body entered and nothing
else. -/
theorem Lecture4.check_loop_timeline_agrees (input : List Nat) :
    ∀ (k i flag : Nat) (t : List Action),
      (Lecture4.check_loop_timeline input k i flag t).map
          (fun p => (p.1, loads_of p.2, passes p.2, calls p.2)) =
        (Lecture4.check_loop input k i flag (loads_of t) (passes t)).map
          (fun p => (p.1, p.2.1, p.2.2, calls t)) := by
  intro k
  induction k with
  | zero => intro i flag t; rfl
  | succ k ih =>
    intro i flag t
    rw [Lecture4.check_loop_timeline, Lecture4.check_loop]
    split
    · next stored attempt _ _ =>
      have h := ih (i + 1) ((flag ||| (stored ^^^ attempt)) % 256)
        (t ++ [.load i] ++ [.pass ((flag ||| (stored ^^^ attempt)) % 256)])
      have hp : passes (t ++ [.load i] ++ [.pass ((flag ||| (stored ^^^ attempt)) % 256)]) =
          passes t + 1 := by simp [passes]
      have hc : calls (t ++ [.load i] ++ [.pass ((flag ||| (stored ^^^ attempt)) % 256)]) =
          calls t := by simp [calls]
      have hl : loads_of (t ++ [.load i] ++ [.pass ((flag ||| (stored ^^^ attempt)) % 256)]) =
          loads_of t ++ [i] := by simp [loads_of]
      rw [hp, hc, hl] at h
      exact h
    · rfl

/-- The shared tail of the exponentiation handlers, read off its timeline, is the shared
tail of the run. -/
theorem rsa_finish_timeline_refines (fuel modulus message exponent : Nat) (t : List Action)
    (ht : passes t = 0) :
    (rsa_finish_timeline fuel modulus message exponent t).map observe =
      rsa_finish fuel modulus message exponent (calls t) (loads_of t) := by
  have h := rsa_while_timeline_refines modulus fuel
    { message := message, exponent := exponent, result := 1, tmp := 0 } (t ++ [.init 1])
  have hp : passes (t ++ [.init 1]) = 0 := by simpa [passes] using ht
  have hc : calls (t ++ [.init 1]) = calls t := by simp [calls]
  have hl : loads_of (t ++ [.init 1]) = loads_of t := by simp [loads_of]
  rw [hp, hc, hl] at h
  cases hA : rsa_while_timeline modulus fuel
      { message := message, exponent := exponent, result := 1, tmp := 0 } (t ++ [.init 1]) with
  | error f =>
    cases hB : rsa_while modulus fuel
        { message := message, exponent := exponent, result := 1, tmp := 0 } 0 with
    | error g =>
      rw [hA, hB] at h
      simp only [Except.map, Except.error.injEq] at h
      simp [rsa_finish_timeline, rsa_finish, hA, hB, Except.map, h]
    | ok q => rw [hA, hB] at h; simp [Except.map] at h
  | ok p =>
    cases hB : rsa_while modulus fuel
        { message := message, exponent := exponent, result := 1, tmp := 0 } 0 with
    | error g => rw [hA, hB] at h; simp [Except.map] at h
    | ok q =>
      rw [hA, hB] at h
      simp only [Except.map, Except.ok.injEq, Prod.mk.injEq] at h
      obtain ⟨h1, h2, h3, h4⟩ := h
      obtain ⟨w, t2⟩ := p
      obtain ⟨w2, n⟩ := q
      simp only at h1 h2 h3 h4
      subst h1
      simp [rsa_finish_timeline, rsa_finish, hA, hB, Except.map, observe, calls, loads_of,
        passes] at h2 h3 h4 ⊢
      exact ⟨h3, h4, h2⟩

/-- The fixed-parameter handler, read off its timeline, is the run of `rsa_uint8_fixed`. -/
theorem Lecture1.rsa_uint8_fixed_timeline_refines (fuel : Nat) (input : List Nat) :
    (Lecture1.rsa_uint8_fixed_timeline fuel input).map observe =
      Lecture1.rsa_uint8_fixed fuel input := by
  unfold Lecture1.rsa_uint8_fixed_timeline Lecture1.rsa_uint8_fixed
  exact rsa_finish_timeline_refines fuel _ _ _ _ (by decide)

/-- The variable-parameter handler, read off its timeline, is the run of `rsa_uint8`. -/
theorem Lecture1.rsa_uint8_timeline_refines (fuel : Nat) (input : List Nat) :
    (Lecture1.rsa_uint8_timeline fuel input).map observe = Lecture1.rsa_uint8 fuel input := by
  unfold Lecture1.rsa_uint8_timeline Lecture1.rsa_uint8
  split
  · exact rsa_finish_timeline_refines fuel _ _ _ _ (by decide)
  · rfl

/-- The early-exit comparator, read off its timeline, is the run of `check_password`. -/
theorem Lecture2.check_password_timeline_refines (input : List Nat) :
    (Lecture2.check_password_timeline input).map observe = Lecture2.check_password input := by
  have h := Lecture2.check_loop_timeline_refines input (Lecture2.stored_password.length - 1) 0 1
    [.call .trigger_high, .init 1]
  have hp : passes [.call .trigger_high, .init 1] = 0 := by decide
  have hc : calls [.call .trigger_high, .init 1] = [.trigger_high] := by decide
  have hl : loads_of [.call .trigger_high, .init 1] = [] := by decide
  rw [hp, hc, hl] at h
  cases hA : Lecture2.check_loop_timeline input (Lecture2.stored_password.length - 1) 0 1
      [.call .trigger_high, .init 1] with
  | error f =>
    cases hB : Lecture2.check_loop input (Lecture2.stored_password.length - 1) 0 1 [] 0 with
    | error g =>
      rw [hA, hB] at h
      simp only [Except.map, Except.error.injEq] at h
      simp [Lecture2.check_password_timeline, Lecture2.check_password, hA, hB, Except.map, h]
    | ok q => rw [hA, hB] at h; simp [Except.map] at h
  | ok p =>
    cases hB : Lecture2.check_loop input (Lecture2.stored_password.length - 1) 0 1 [] 0 with
    | error g => rw [hA, hB] at h; simp [Except.map] at h
    | ok q =>
      rw [hA, hB] at h
      simp only [Except.map, Except.ok.injEq, Prod.mk.injEq] at h
      obtain ⟨h1, h2, h3, h4⟩ := h
      obtain ⟨out, t2⟩ := p
      obtain ⟨out2, l, n⟩ := q
      simp only at h1 h2 h3 h4
      subst h1
      simp [Lecture2.check_password_timeline, Lecture2.check_password, hA, hB, Except.map,
        observe, calls, loads_of, passes] at h2 h3 h4 ⊢
      exact ⟨by rw [h4]; rfl, h2, h3⟩

/-- The uniform-time comparator, read off its timeline, is the run of `check_password`. -/
theorem Lecture4.check_password_timeline_agrees (input : List Nat) :
    (Lecture4.check_password_timeline input).map observe = Lecture4.check_password input := by
  have h := Lecture4.check_loop_timeline_agrees input (Lecture4.stored_password.length - 1) 0 0
    [.call .trigger_high, .init 0]
  have hp : passes [.call .trigger_high, .init 0] = 0 := by decide
  have hc : calls [.call .trigger_high, .init 0] = [.trigger_high] := by decide
  have hl : loads_of [.call .trigger_high, .init 0] = [] := by decide
  rw [hp, hc, hl] at h
  cases hA : Lecture4.check_loop_timeline input (Lecture4.stored_password.length - 1) 0 0
      [.call .trigger_high, .init 0] with
  | error f =>
    cases hB : Lecture4.check_loop input (Lecture4.stored_password.length - 1) 0 0 [] 0 with
    | error g =>
      rw [hA, hB] at h
      simp only [Except.map, Except.error.injEq] at h
      simp [Lecture4.check_password_timeline, Lecture4.check_password, hA, hB, Except.map, h]
    | ok q => rw [hA, hB] at h; simp [Except.map] at h
  | ok p =>
    cases hB : Lecture4.check_loop input (Lecture4.stored_password.length - 1) 0 0 [] 0 with
    | error g => rw [hA, hB] at h; simp [Except.map] at h
    | ok q =>
      rw [hA, hB] at h
      simp only [Except.map, Except.ok.injEq, Prod.mk.injEq] at h
      obtain ⟨h1, h2, h3, h4⟩ := h
      obtain ⟨out, t2⟩ := p
      obtain ⟨out2, l, n⟩ := q
      simp only at h1 h2 h3 h4
      subst h1
      simp [Lecture4.check_password_timeline, Lecture4.check_password, hA, hB, Except.map,
        observe, calls, loads_of, passes] at h2 h3 h4 ⊢
      exact ⟨by rw [h4]; rfl, h2, h3⟩

/-- A run read off a timeline exists only when the timeline does. -/
theorem timeline_of_run (x : Except Fault (List Action × Nat)) (r : Run)
    (h : x.map observe = .ok r) : ∃ t, x = .ok (t, r.ret) := by
  cases x with
  | error f => simp [Except.map] at h
  | ok p =>
    simp only [Except.map, Except.ok.injEq] at h
    subst h
    exact ⟨p.1, rfl⟩

/-- A stretch of the timeline without calls adds nothing to the trace. -/
theorem calls_eq_nil (l : List Action) (h : ∀ x ∈ l, (∃ i, x = .load i) ∨ ∃ y, x = .pass y) :
    calls l = [] := by
  induction l with
  | nil => rfl
  | cons a l ih =>
    have ha := h a (List.mem_cons_self a l)
    have hl := ih (fun x hx => h x (List.mem_cons_of_mem a hx))
    rcases ha with ⟨i, rfl⟩ | ⟨y, rfl⟩
    · simpa [calls] using hl
    · simpa [calls] using hl

/-- The trace of a timeline that brackets a call-free stretch between the triggers. -/
theorem calls_bracket (pre body : List Action) (v0 : Nat) (e1 e2 : Event)
    (hpre : ∀ x ∈ pre, ∃ i, x = .load i)
    (hbody : ∀ x ∈ body, (∃ i, x = .load i) ∨ ∃ y, x = .pass y) :
    calls (pre ++ [.call .trigger_high] ++ [.init v0] ++ body ++ [.call e1, .call e2]) =
      [.trigger_high, e1, e2] := by
  have h1 : calls pre = [] := calls_eq_nil pre (fun x hx => Or.inl (hpre x hx))
  have h2 : calls body = [] := calls_eq_nil body hbody
  unfold calls at h1 h2 ⊢
  simp [h1, h2]

/-- The timeline of a completed shared tail of the exponentiation handlers. -/
theorem rsa_finish_timeline_shape (fuel modulus message exponent : Nat) (t0 t : List Action)
    (ret : Nat) (h : rsa_finish_timeline fuel modulus message exponent t0 = .ok (t, ret)) :
    ∃ body b, t = t0 ++ [.init 1] ++ body ++
        [.call .trigger_low, .call (.simpleserial_put 'r' 1 [b])] ∧
      (∀ x ∈ body, (∃ i, x = .load i) ∨ ∃ y, x = .pass y) ∧
      ((body = [] ∧ b = 1) ∨ ∃ m1, body = m1 ++ [.pass b]) ∧ ret = 0 := by
  cases hA : rsa_while_timeline modulus fuel
      { message := message, exponent := exponent, result := 1, tmp := 0 } (t0 ++ [.init 1]) with
  | error f => simp [rsa_finish_timeline, hA] at h
  | ok p =>
    obtain ⟨w, t2⟩ := p
    simp only [rsa_finish_timeline, hA, Except.ok.injEq, Prod.mk.injEq] at h
    obtain ⟨ht, hret⟩ := h
    obtain ⟨body, ht2, hall, hlast⟩ := rsa_while_timeline_shape modulus fuel _ _ w t2 hA
    refine ⟨body, w.result, ?_, fun x hx => Or.inr (hall x hx), hlast, hret.symm⟩
    rw [← ht, ht2]
    simp

/-- The timeline of a completed early-exit comparator. -/
theorem Lecture2.check_password_timeline_shape (input : List Nat) (t : List Action) (ret : Nat)
    (h : Lecture2.check_password_timeline input = .ok (t, ret)) :
    ∃ body b, t = [] ++ [.call .trigger_high] ++ [.init 1] ++ body ++
        [.call .trigger_low, .call (.simpleserial_put 'p' 1 [b])] ∧
      (∀ x ∈ body, (∃ i, x = .load i) ∨ ∃ y, x = .pass y) ∧
      ((body = [] ∧ b = 1) ∨ ∃ m1, body = m1 ++ [.pass b]) ∧ ret = 0 := by
  cases hA : Lecture2.check_loop_timeline input (Lecture2.stored_password.length - 1) 0 1
      [.call .trigger_high, .init 1] with
  | error f => simp [Lecture2.check_password_timeline, hA] at h
  | ok p =>
    obtain ⟨out, t2⟩ := p
    simp only [Lecture2.check_password_timeline, List.nil_append, List.singleton_append, hA,
      Except.ok.injEq, Prod.mk.injEq] at h
    obtain ⟨ht, hret⟩ := h
    obtain ⟨body, ht2, hall, hlast⟩ := Lecture2.check_loop_timeline_shape input _ _ _ _ out t2 hA
    refine ⟨body, out, ?_, hall, hlast, hret.symm⟩
    rw [← ht, ht2]
    simp

/-- The timeline of a completed uniform-time comparator. -/
theorem Lecture4.check_password_timeline_form (input : List Nat) (t : List Action) (ret : Nat)
    (h : Lecture4.check_password_timeline input = .ok (t, ret)) :
    ∃ body b, t = [] ++ [.call .trigger_high] ++ [.init 0] ++ body ++
        [.call .trigger_low, .call (.simpleserial_put 'p' 1 [b])] ∧
      (∀ x ∈ body, (∃ i, x = .load i) ∨ ∃ y, x = .pass y) ∧
      ((body = [] ∧ b = 0) ∨ ∃ m1, body = m1 ++ [.pass b]) ∧ ret = 0 := by
  cases hA : Lecture4.check_loop_timeline input (Lecture4.stored_password.length - 1) 0 0
      [.call .trigger_high, .init 0] with
  | error f => simp [Lecture4.check_password_timeline, hA] at h
  | ok p =>
    obtain ⟨out, t2⟩ := p
    simp only [Lecture4.check_password_timeline, List.nil_append, List.singleton_append, hA,
      Except.ok.injEq, Prod.mk.injEq] at h
    obtain ⟨ht, hret⟩ := h
    obtain ⟨body, ht2, hall, hlast⟩ := Lecture4.check_loop_timeline_form input _ _ _ _ out t2 hA
    refine ⟨body, out, ?_, hall, hlast, hret.symm⟩
    rw [← ht, ht2]
    simp

/-- C16: with every call, load and update of the sent variable recorded in order on one
timeline, every completed call of one of the four handlers has the timeline
`pre ++ [trigger_high] ++ [init v0] ++ body ++ [trigger_low, simpleserial_put (tag, 1, [b])]`
where `pre` holds only loads of `input`, `body` holds only loads and loop passes, and `b`
is the value of the sent variable after the last pass (its initial value when no pass
ran): the result is initialised and computed between the two trigger events, the calls
are exactly trigger_high, trigger_low, simpleserial_put in this order, the tag is 'r'
for `rsa_uint8_fixed` and `rsa_uint8` and 'p' for both `check_password`, and the handler
returns 0 whatever the result.  Read off its timeline each handler is the handler of the
run, and on well-formed inputs each handler completes. -/
theorem handlers_trace (fuel : Nat) (input : List Nat) :
    (∀ (tag : Char) (t : List Action) (ret : Nat),
      (tag = 'r' ∧ (Lecture1.rsa_uint8_fixed_timeline fuel input = .ok (t, ret) ∨
          Lecture1.rsa_uint8_timeline fuel input = .ok (t, ret)) ∨
        tag = 'p' ∧ (Lecture2.check_password_timeline input = .ok (t, ret) ∨
          Lecture4.check_password_timeline input = .ok (t, ret))) →
      ∃ pre v0 body b,
        t = pre ++ [.call .trigger_high] ++ [.init v0] ++ body ++
          [.call .trigger_low, .call (.simpleserial_put tag 1 [b])] ∧
        (∀ x ∈ pre, ∃ i, x = .load i) ∧
        (∀ x ∈ body, (∃ i, x = .load i) ∨ ∃ y, x = .pass y) ∧
        ((body = [] ∧ b = v0) ∨ ∃ m1, body = m1 ++ [.pass b]) ∧
        calls t = [.trigger_high, .trigger_low, .simpleserial_put tag 1 [b]] ∧
        ret = 0) ∧
    ((Lecture1.rsa_uint8_fixed_timeline fuel input).map observe =
        Lecture1.rsa_uint8_fixed fuel input ∧
      (Lecture1.rsa_uint8_timeline fuel input).map observe = Lecture1.rsa_uint8 fuel input ∧
      (Lecture2.check_password_timeline input).map observe = Lecture2.check_password input ∧
      (Lecture4.check_password_timeline input).map observe = Lecture4.check_password input) ∧
    (3 ≤ fuel → ∃ t, Lecture1.rsa_uint8_fixed_timeline fuel input = .ok (t, 0)) ∧
    (∀ message exponent modulus, message < 256 → exponent < 256 → modulus < 256 →
      0 < modulus → 8 ≤ fuel →
      ∃ t, Lecture1.rsa_uint8_timeline fuel [message, exponent, modulus] = .ok (t, 0)) ∧
    (8 ≤ input.length → ∃ t, Lecture2.check_password_timeline input = .ok (t, 0)) ∧
    (8 ≤ input.length → ∃ t, Lecture4.check_password_timeline input = .ok (t, 0)) := by
  refine ⟨?_, ⟨Lecture1.rsa_uint8_fixed_timeline_refines fuel input,
    Lecture1.rsa_uint8_timeline_refines fuel input,
    Lecture2.check_password_timeline_refines input,
    Lecture4.check_password_timeline_agrees input⟩, fun hfuel => ?_, ?_, fun hlen => ?_,
    fun hlen => ?_⟩
  · intro tag t ret h
    rcases h with ⟨rfl, h | h⟩ | ⟨rfl, h | h⟩
    · obtain ⟨body, b, ht, hall, hlast, hret⟩ := rsa_finish_timeline_shape _ _ _ _ _ t ret h
      have hpre : ∀ x ∈ ([] : List Action), ∃ i, x = Action.load i := by simp
      exact ⟨[], 1, body, b, ht, hpre, hall, hlast,
        by rw [ht]; exact calls_bracket [] body 1 _ _ hpre hall, hret⟩
    · unfold Lecture1.rsa_uint8_timeline at h
      split at h
      · obtain ⟨body, b, ht, hall, hlast, hret⟩ := rsa_finish_timeline_shape _ _ _ _ _ t ret h
        have hpre : ∀ x ∈ [Action.load 0, .load 1, .load 2], ∃ i, x = Action.load i := by
          intro x hx
          simp only [List.mem_cons, List.mem_singleton, List.not_mem_nil, or_false] at hx
          rcases hx with hx | hx | hx <;> exact ⟨_, hx⟩
        exact ⟨[.load 0, .load 1, .load 2], 1, body, b, ht, hpre, hall, hlast,
          by rw [ht]; exact calls_bracket _ body 1 _ _ hpre hall, hret⟩
      · cases h
    · obtain ⟨body, b, ht, hall, hlast, hret⟩ :=
        Lecture2.check_password_timeline_shape input t ret h
      have hpre : ∀ x ∈ ([] : List Action), ∃ i, x = Action.load i := by simp
      exact ⟨[], 1, body, b, ht, hpre, hall, hlast,
        by rw [ht]; exact calls_bracket [] body 1 _ _ hpre hall, hret⟩
    · obtain ⟨body, b, ht, hall, hlast, hret⟩ :=
        Lecture4.check_password_timeline_form input t ret h
      have hpre : ∀ x ∈ ([] : List Action), ∃ i, x = Action.load i := by simp
      exact ⟨[], 0, body, b, ht, hpre, hall, hlast,
        by rw [ht]; exact calls_bracket [] body 0 _ _ hpre hall, hret⟩
  · have hf : 5 < 2 ^ fuel :=
      lt_of_lt_of_le (by decide) (Nat.pow_le_pow_right (Nat.succ_pos 1) hfuel)
    have hrun : Lecture1.rsa_uint8_fixed fuel input = .ok
        { events := [.trigger_high, .trigger_low, .simpleserial_put 'r' 1 [62]]
          loads := [], iterations := Nat.size 5, ret := 0 } := by
      simpa [Lecture1.rsa_uint8_fixed, Lecture1.private_exponent, Lecture1.modulus] using
        rsa_finish_run fuel 221 160 5 [.trigger_high] [] (by decide) (by decide) (by decide)
          (by decide) hf
    exact timeline_of_run _ _
      ((Lecture1.rsa_uint8_fixed_timeline_refines fuel input).trans hrun)
  · intro message exponent modulus hm he hn8 hn hfuel
    exact timeline_of_run _ _
      ((Lecture1.rsa_uint8_timeline_refines fuel [message, exponent, modulus]).trans
        (Lecture1.rsa_uint8_run fuel message exponent modulus hn hn8 hm he
          (byte_lt_two_pow fuel exponent hfuel he)))
  · by_cases hall : ∀ i, i < 8 → input[i]? = Lecture2.stored_password[i]?
    · exact timeline_of_run _ _
        ((Lecture2.check_password_timeline_refines input).trans
          (Lecture2.check_password_match input hlen hall))
    · obtain ⟨m, hm, hne, hbefore⟩ := Lecture2.first_mismatch input hall
      exact timeline_of_run _ _
        ((Lecture2.check_password_timeline_refines input).trans
          (Lecture2.check_password_mismatch input m hm (by omega) hbefore hne))
  · exact timeline_of_run _ _
      ((Lecture4.check_password_timeline_agrees input).trans
        (Lecture4.check_password_run input hlen))

/-- Instance of `handlers_trace`: the completed calls of `rsa_uint8` on [3, 4, 5] and of
the early-exit `check_password` on "xnfineon" padded to ten bytes, with their timelines
written out. -/
theorem handlers_trace_witness :
    (Lecture1.rsa_uint8_timeline 8 [3, 4, 5] = .ok
        ([.load 0, .load 1, .load 2, .call .trigger_high, .init 1, .pass 1, .pass 1, .pass 1,
          .call .trigger_low, .call (.simpleserial_put 'r' 1 [1])], 0) ∧
      Lecture2.check_password_timeline (ascii "xnfineon" ++ [0, 0]) = .ok
        ([.call .trigger_high, .init 1, .load 0, .pass 0,
          .call .trigger_low, .call (.simpleserial_put 'p' 1 [0])], 0)) ∧
    (∃ pre v0 body b,
      [Action.load 0, .load 1, .load 2, .call .trigger_high, .init 1, .pass 1, .pass 1, .pass 1,
          .call .trigger_low, .call (.simpleserial_put 'r' 1 [1])] =
        pre ++ [.call .trigger_high] ++ [.init v0] ++ body ++
          [.call .trigger_low, .call (.simpleserial_put 'r' 1 [b])] ∧
      (∀ x ∈ pre, ∃ i, x = .load i) ∧
      (∀ x ∈ body, (∃ i, x = .load i) ∨ ∃ y, x = .pass y) ∧
      ((body = [] ∧ b = v0) ∨ ∃ m1, body = m1 ++ [.pass b]) ∧
      calls [Action.load 0, .load 1, .load 2, .call .trigger_high, .init 1, .pass 1, .pass 1,
          .pass 1, .call .trigger_low, .call (.simpleserial_put 'r' 1 [1])] =
        [.trigger_high, .trigger_low, .simpleserial_put 'r' 1 [b]] ∧
      0 = 0) ∧
    (∃ pre v0 body b,
      [Action.call .trigger_high, .init 1, .load 0, .pass 0,
          .call .trigger_low, .call (.simpleserial_put 'p' 1 [0])] =
        pre ++ [.call .trigger_high] ++ [.init v0] ++ body ++
          [.call .trigger_low, .call (.simpleserial_put 'p' 1 [b])] ∧
      (∀ x ∈ pre, ∃ i, x = .load i) ∧
      (∀ x ∈ body, (∃ i, x = .load i) ∨ ∃ y, x = .pass y) ∧
      ((body = [] ∧ b = v0) ∨ ∃ m1, body = m1 ++ [.pass b]) ∧
      calls [Action.call .trigger_high, .init 1, .load 0, .pass 0,
          .call .trigger_low, .call (.simpleserial_put 'p' 1 [0])] =
        [.trigger_high, .trigger_low, .simpleserial_put 'p' 1 [b]] ∧
      0 = 0) :=
  ⟨by decide,
    (handlers_trace 8 [3, 4, 5]).1 'r' _ 0 (Or.inl ⟨rfl, Or.inr (by decide)⟩),
    (handlers_trace 8 (ascii "xnfineon" ++ [0, 0])).1 'p' _ 0
      (Or.inr ⟨rfl, Or.inl (by decide)⟩)⟩

end SecureC
